import Mathlib

/-!
Shallow embedding of the `index-map` TypeScript library (the final revision in
`src/map.ts`, `src/iter.ts`, `src/set.ts`), with the hasher specialized to the
default identity hasher (`valueOf`, which is the identity on the primitive
number keys used throughout).  A JS `Map` is modelled as an association list in
insertion order (`set` on a present key updates in place, on a fresh key
appends; `delete` removes; iteration follows list order), matching the
ECMAScript ordering guarantees the code relies on.  JS array indices that may
be negative are modelled as `Int`; JS `Array.prototype.splice` index clamping
is reproduced exactly.  Non-null assertions (`!`) whose failure would raise a
`TypeError` are modelled either by `Except` (where a claim is about raising)
or by an explicit fallback branch that is unreachable in the states the
theorems quantify over.
-/

/-- The hash-table bucket `[index, value]` of `map.ts` (`Bucket<T> = [number, T]`).
The stored index is an `Int` because `#removeAndShiftIndices` can drive it
below zero. -/
structure Bucket where
  idx : Int
  val : Nat
deriving DecidableEq

/-- The `IndexMap` state: `#map` (a JS `Map` in insertion order) and
`#indices` (the dense order array of keys). -/
structure IndexMap where
  table : List (Nat × Bucket)
  indices : List Nat
deriving DecidableEq

/-- JS `Map.prototype.get`: first (unique) entry with the key. -/
def mapFind : List (Nat × Bucket) → Nat → Option Bucket
  | [], _ => none
  | (k2, b) :: rest, k => if k2 = k then some b else mapFind rest k

/-- JS `Map.prototype.set`: update in place if present (position kept),
append otherwise. -/
def mapSet : List (Nat × Bucket) → Nat → Bucket → List (Nat × Bucket)
  | [], k, b => [(k, b)]
  | (k2, b2) :: rest, k, b => if k2 = k then (k2, b) :: rest else (k2, b2) :: mapSet rest k b

/-- JS `Map.prototype.delete`: remove the (unique) entry with the key. -/
def mapDelete : List (Nat × Bucket) → Nat → List (Nat × Bucket)
  | [], _ => []
  | (k2, b2) :: rest, k => if k2 = k then rest else (k2, b2) :: mapDelete rest k

/-- In-place mutation `bucket[INDEX] = i` of the bucket object held for `k`. -/
def mapSetIdx : List (Nat × Bucket) → Nat → Int → List (Nat × Bucket)
  | [], _, _ => []
  | (k2, b2) :: rest, k, i =>
      if k2 = k then (k2, ⟨i, b2.val⟩) :: rest else (k2, b2) :: mapSetIdx rest k i

/-- In-place mutation `bucket[VALUE] = v` of the bucket object held for `k`. -/
def mapSetVal : List (Nat × Bucket) → Nat → Nat → List (Nat × Bucket)
  | [], _, _ => []
  | (k2, b2) :: rest, k, v =>
      if k2 = k then (k2, ⟨b2.idx, v⟩) :: rest else (k2, b2) :: mapSetVal rest k v

/-- JS array read `arr[i]` with a possibly negative or too large index:
`undefined` (`none`) outside `[0, length)`. -/
def jsGet (l : List Nat) (i : Int) : Option Nat :=
  if i < 0 then none else l[i.toNat]?

/-- The `swap` helper of `util.ts` (`temp = a[to]; a[to] = a[from]; a[from] = temp`),
defined for in-range positions; the out-of-range case is never reached behind
`swapIndices`' bounds guard. -/
def swapArr (l : List Nat) (a b : Nat) : List Nat :=
  match l[a]?, l[b]? with
  | some xa, some xb => (l.set b xa).set a xb
  | _, _ => l

/-- `Array.prototype.splice` start-index normalization: negative counts from
the end (clamped at 0), positive is clamped at the length. -/
def jsSpliceStart (len : Nat) (start : Int) : Nat :=
  if start < 0 then ((len : Int) + start).toNat else min start.toNat len

/-- `arr.splice(start, 1)`: remove one element at the normalized position. -/
def jsSpliceRemove1 (l : List Nat) (start : Int) : List Nat :=
  l.eraseIdx (jsSpliceStart l.length start)

/-- `arr.splice(start, 1)[0]`: the removed element, if any. -/
def jsSpliceRemoved (l : List Nat) (start : Int) : Option Nat :=
  l[jsSpliceStart l.length start]?

/-- `arr.splice(start, 0, x)`: insert `x` at the normalized position. -/
def jsSpliceInsert (l : List Nat) (start : Int) (x : Nat) : List Nat :=
  l.take (jsSpliceStart l.length start) ++ x :: l.drop (jsSpliceStart l.length start)

/-- JS write `arr[i] = x` for `i ≤ arr.length` (the only shape the code uses:
`#indices[idx] = key` with `idx` equal to the map size). -/
def jsArrWrite (l : List Nat) (i : Nat) (x : Nat) : List Nat :=
  if i < l.length then l.set i x else l ++ [x]

/-- The `oob` helper of `map.ts`: `index < 0 || index >= bounds`. -/
def oob (index : Int) (bounds : Nat) : Bool :=
  index < 0 || (bounds : Int) ≤ index

/-- The two error classes raised by the modelled code paths: `RangeError`
(thrown explicitly) and `TypeError` (a failed non-null assertion). -/
inductive JsErr where
  | range
  | type
deriving DecidableEq

/-- Decidable equality for `Except` results, so that concrete runs of the
modelled fallible operations can be settled by `decide`. -/
instance {e a : Type} [DecidableEq e] [DecidableEq a] : DecidableEq (Except e a) := fun x y =>
  match x, y with
  | Except.ok u, Except.ok w =>
      if h : u = w then Decidable.isTrue (by rw [h])
      else Decidable.isFalse (by intro hx; cases hx; exact h rfl)
  | Except.error u, Except.error w =>
      if h : u = w then Decidable.isTrue (by rw [h])
      else Decidable.isFalse (by intro hx; cases hx; exact h rfl)
  | Except.ok _, Except.error _ => Decidable.isFalse (by intro hx; cases hx)
  | Except.error _, Except.ok _ => Decidable.isFalse (by intro hx; cases hx)

/-- A JS value as far as `===`-against-`null` is concerned: the map never
stores `null` (keys and values satisfy `Ord & {}`), so reads produce either
`undefined` or a stored (non-null) value. -/
inductive JsVal where
  | undef
  | jsnull
  | num (n : Nat)
deriving DecidableEq

/-- JS strict equality on the modelled values (`undefined === null` is false). -/
def jsStrictEq (a b : JsVal) : Bool :=
  a = b

/-- `undefined`-or-value result of an optional read, as a `JsVal`. -/
def jsOfOpt : Option Nat → JsVal
  | none => JsVal.undef
  | some v => JsVal.num v

namespace IndexMap

/-- `get size()`: the JS `Map`'s size. -/
def size (m : IndexMap) : Nat :=
  m.table.length

/-- `set(key, value)` (identity hasher): update the bucket's value in place if
present, otherwise append a bucket `[size, value]` and write the key at
`#indices[size]`.  Returns the old value for an overwrite. -/
def setVal (m : IndexMap) (k v : Nat) : IndexMap × Option Nat :=
  match mapFind m.table k with
  | some b => ({ m with table := mapSetVal m.table k v }, some b.val)
  | none =>
      let idx := m.table.length
      (⟨mapSet m.table k ⟨(idx : Int), v⟩, jsArrWrite m.indices idx k⟩, none)

/-- State part of `set`. -/
def setSt (m : IndexMap) (k v : Nat) : IndexMap :=
  (m.setVal k v).1

/-- A map built by inserting the pairs in order into an empty map. -/
def ofPairs (ps : List (Nat × Nat)) : IndexMap :=
  ps.foldl (fun m p => m.setSt p.1 p.2) ⟨[], []⟩

/-- The bucket rewrite performed by `#removeAndShiftIndices`' loop: walking the
table in insertion order with position counter `p`, decrement the stored index
of every bucket at position `≥ index` (note: position in *table iteration
order*, not the bucket's stored index). -/
def shiftTableGo (p index : Int) : List (Nat × Bucket) → List (Nat × Bucket)
  | [] => []
  | (k, b) :: rest =>
      (k, if p < index then b else ⟨b.idx - 1, b.val⟩) :: shiftTableGo (p + 1) index rest

/-- `#removeAndShiftIndices(index)`: no-op when `index` equals the (post-delete)
map size, otherwise run the positional decrement loop. -/
def removeAndShiftIndices (m : IndexMap) (index : Int) : IndexMap :=
  if index = (m.table.length : Int) then m
  else { m with table := shiftTableGo 0 index m.table }

/-- `#shiftRemoveFullUnchecked(index, hash, value)`: delete the bucket, splice
the order array at `index` (the element removed by the splice is the returned
key), then shift.  Returns the `[index, key, value]` entry. -/
def shiftRemoveFullUnchecked (m : IndexMap) (index : Int) (hk : Nat) (v : Nat) :
    IndexMap × (Int × Option Nat × Nat) :=
  let t := mapDelete m.table hk
  let removed := jsSpliceRemoved m.indices index
  let ind := jsSpliceRemove1 m.indices index
  (removeAndShiftIndices ⟨t, ind⟩ index, (index, removed, v))

/-- `delete(key)` (the shift-removal): look up the bucket and run
`#shiftRemoveFullUnchecked` at its stored index.  Returns the removed value. -/
def deleteVal (m : IndexMap) (k : Nat) : IndexMap × Option Nat :=
  match mapFind m.table k with
  | none => (m, none)
  | some b =>
      let r := m.shiftRemoveFullUnchecked b.idx k b.val
      (r.1, some r.2.2.2)

/-- State part of `delete`. -/
def deleteSt (m : IndexMap) (k : Nat) : IndexMap :=
  (m.deleteVal k).1

/-- `pop()`: `delete(#indices[size - 1])` on a non-empty map. -/
def popVal (m : IndexMap) : IndexMap × Option Nat :=
  if 0 < m.table.length then
    match m.indices[m.table.length - 1]? with
    | some k => m.deleteVal k
    | none => (m, none)
  else (m, none)

/-- State part of `pop`. -/
def popSt (m : IndexMap) : IndexMap :=
  m.popVal.1

/-- `truncate(new_len)`: pop from the back while the order array is longer than
`new_len`.  The source loop terminates only because each `pop` shortens the
order array by one; the guard below stops if it does not. -/
def truncate (m : IndexMap) (n : Nat) : IndexMap :=
  if _h : m.indices.length ≤ n then m
  else
    let m2 := m.popSt
    if _h2 : m2.indices.length < m.indices.length then m2.truncate n else m2
termination_by m.indices.length

/-- `swapIndices(from, to)`: silently ignore out-of-range arguments, otherwise
swap the two order-array slots and exchange the two buckets' stored index
fields (via the `vfrom`/`vto` references taken after the array swap). -/
def swapIndices (m : IndexMap) (a b : Int) : IndexMap :=
  if a > (m.table.length : Int) - 1 ∨ b > (m.table.length : Int) - 1
      ∨ a < 0 ∨ b < 0 then m
  else
    match jsGet (swapArr m.indices a.toNat b.toNat) a,
        jsGet (swapArr m.indices a.toNat b.toNat) b with
    | some kf, some kt =>
        match mapFind m.table kf, mapFind m.table kt with
        | some bf, some bt =>
            ⟨mapSetIdx (mapSetIdx m.table kf bt.idx) kt bf.idx,
              swapArr m.indices a.toNat b.toNat⟩
        | _, _ => m
    | _, _ => m

/-- `#shiftUp(from, to)` loop body, unrolled on the iteration count. -/
def shiftUpGo (m : IndexMap) (i : Int) : Nat → IndexMap
  | 0 => m
  | n + 1 => shiftUpGo (m.swapIndices i (i + 1)) (i + 1) n

/-- `#shiftUp(from, to)`: `swapIndices(i, i+1)` for `i = from, ..., to-1`. -/
def shiftUp (m : IndexMap) (a b : Int) : IndexMap :=
  shiftUpGo m a (b - a).toNat

/-- `#shiftDown(from, to)` loop body, unrolled on the iteration count. -/
def shiftDownGo (m : IndexMap) (i : Int) : Nat → IndexMap
  | 0 => m
  | n + 1 => shiftDownGo (m.swapIndices (i + 1) i) (i - 1) n

/-- `#shiftDown(from, to)`: `swapIndices(i+1, i)` for `i = from-1, ..., to`. -/
def shiftDown (m : IndexMap) (a b : Int) : IndexMap :=
  shiftDownGo m (a - 1) (a - b).toNat

/-- `moveIndex(from, to)`.  The source computes `max` and `min` with the same
conditional expression (both yield the smaller argument), so the
adjacent-index fast path `min + 1 === max` can never fire; the translation
reproduces this verbatim. -/
def moveIndex (m : IndexMap) (a b : Int) : IndexMap :=
  let mx : Int := if a ≤ b then a else b
  let mn : Int := if a ≤ b then a else b
  if mn + 1 = mx then m.swapIndices mn mx
  else if a < b then m.shiftUp a b
  else m.shiftDown a b

/-- `#syncIndices` loop body with the failed non-null assertion collapsed to a
no-op, as used behind `reverse`: every use of `reverse` in this development is
on a concrete state whose assertions all succeed, where it agrees with the
faithful fallible model `syncGoE` below. -/
def syncGo (m : IndexMap) (i : Int) : Nat → IndexMap
  | 0 => m
  | n + 1 =>
      let m2 :=
        match jsGet m.indices i with
        | some k =>
            match mapFind m.table k with
            | some _ => { m with table := mapSetIdx m.table k i }
            | none => m
        | none => m
      syncGo m2 (i + 1) n

/-- `#syncIndices(from, to)`: run the loop for `i = from, ..., to-1`. -/
def syncIndices (m : IndexMap) (a b : Int) : IndexMap :=
  syncGo m a (b - a).toNat

/-- `#syncIndices` loop body, fallible and faithful to the source: the loop
reads `#indices[i]` (`undefined` out of range, in particular for a negative
`i`), hashes it and looks it up behind a non-null assertion; a missing slot or
a missing bucket raises a `TypeError` at that iteration. -/
def syncGoE (m : IndexMap) (i : Int) : Nat → Except JsErr IndexMap
  | 0 => Except.ok m
  | n + 1 =>
      match jsGet m.indices i with
      | none => Except.error JsErr.type
      | some k =>
          match mapFind m.table k with
          | none => Except.error JsErr.type
          | some _ => syncGoE { m with table := mapSetIdx m.table k i } (i + 1) n

/-- `#syncIndices(from, to)`, fallible: run the loop for `i = from, ..., to-1`. -/
def syncIndicesE (m : IndexMap) (a b : Int) : Except JsErr IndexMap :=
  syncGoE m a (b - a).toNat

/-- `reverse()`: reverse the order array in place, then resync every bucket's
stored index over `[0, size)`. -/
def reverse (m : IndexMap) : IndexMap :=
  let m2 : IndexMap := { m with indices := m.indices.reverse }
  m2.syncIndices 0 (m2.table.length : Int)

/-- `indexOf(key)`: the stored index, or `-1` when absent. -/
def indexOf (m : IndexMap) (k : Nat) : Int :=
  match mapFind m.table k with
  | some b => b.idx
  | none => -1

/-- `getFull(key)`: `[index, key, value]` when present. -/
def getFull (m : IndexMap) (k : Nat) : Option (Int × Nat × Nat) :=
  match mapFind m.table k with
  | some b => some (b.idx, k, b.val)
  | none => none

/-- `getIndex(index)`: `undefined` when out of `[0, size)`, otherwise the value
of the bucket of `#indices[index]`; the two non-null assertions raise a
`TypeError` on inconsistent states. -/
def getIndexE (m : IndexMap) (i : Int) : Except JsErr (Option Nat) :=
  if oob i m.table.length then Except.ok none
  else
    match jsGet m.indices i with
    | none => Except.error JsErr.type
    | some k =>
        match mapFind m.table k with
        | none => Except.error JsErr.type
        | some b => Except.ok (some b.val)

/-- `getIndexEntry(index)`: like `getIndex` but returning the key-value pair. -/
def getIndexEntryE (m : IndexMap) (i : Int) : Except JsErr (Option (Nat × Nat)) :=
  if oob i m.table.length then Except.ok none
  else
    match jsGet m.indices i with
    | none => Except.error JsErr.type
    | some k =>
        match mapFind m.table k with
        | none => Except.error JsErr.type
        | some b => Except.ok (some (k, b.val))

/-- `swapRemoveFull(key)`: look up the entry, swap its slot with the last slot,
then `pop()`.  The returned entry carries `pop`'s value (behind a non-null
assertion that does not check at runtime). -/
def swapRemoveFullVal (m : IndexMap) (k : Nat) : IndexMap × Option (Int × Nat × Option Nat) :=
  match m.getFull k with
  | none => (m, none)
  | some (i, _, _) =>
      let m2 := m.swapIndices i ((m.table.length : Int) - 1)
      let r := m2.popVal
      (r.1, some (i, k, r.2))

/-- State part of `swapRemoveFull` (and so of `swapRemove`). -/
def swapRemoveSt (m : IndexMap) (k : Nat) : IndexMap :=
  (m.swapRemoveFullVal k).1

/-- `swapRemove(key)`: the value of the full entry. -/
def swapRemoveVal (m : IndexMap) (k : Nat) : IndexMap × Option Nat :=
  match m.swapRemoveFullVal k with
  | (m2, some (_, _, v)) => (m2, v)
  | (m2, none) => (m2, none)

/-- `swapRemoveIndex(index)`: guarded no-op for an empty order array or an
out-of-range index, else `swapRemove(#indices[index])`. -/
def swapRemoveIndexVal (m : IndexMap) (i : Int) : IndexMap × Option Nat :=
  if m.indices.length = 0 ∨ i < 0 ∨ (m.indices.length : Int) ≤ i then (m, none)
  else
    match jsGet m.indices i with
    | some k => m.swapRemoveVal k
    | none => (m, none)

/-- `shiftInsert(index, key, value)`: `RangeError` when `index > size`.  For an
existing key the source mutates only the *copy* of the entry returned by
`getFull` (so the stored value is not updated) and then moves the entry;
otherwise it splices the key into the order array, inserts the bucket and
resyncs stored indices from `index` to the new size — a resync iteration whose
slot read or bucket lookup fails raises a `TypeError` (`syncGoE`). -/
def shiftInsertE (m : IndexMap) (i : Int) (k v : Nat) :
    Except JsErr (IndexMap × Option Nat) :=
  if (m.table.length : Int) < i then Except.error JsErr.range
  else
    match m.getFull k with
    | some (oldIdx, _, oldVal) => Except.ok (m.moveIndex oldIdx i, some oldVal)
    | none =>
        let ind := jsSpliceInsert m.indices i k
        let t := mapSet m.table k ⟨i, v⟩
        (syncIndicesE (⟨t, ind⟩ : IndexMap) i (t.length : Int)).map
          fun m2 => (m2, none)

/-- The per-key entry construction of `splitOff`
(`Array.from(indices, (k, i) => [k, [i, map.get(k)![1]]])`); a missing bucket
raises a `TypeError`. -/
def splitEntries (t : List (Nat × Bucket)) : List Nat → Nat → Except JsErr (List (Nat × Bucket))
  | [], _ => Except.ok []
  | k :: rest, i =>
      match mapFind t k with
      | none => Except.error JsErr.type
      | some b => (splitEntries t rest (i + 1)).map fun es => (k, ⟨(i : Int), b.val⟩) :: es

/-- `splitOff(at)`: `RangeError` when `at > size` or `at < 0`; otherwise build
the split-off map from `#indices.slice(at)` with rebased indices, truncate the
receiver to `at`, and return (receiver, split-off map). -/
def splitOffE (m : IndexMap) (cut : Int) : Except JsErr (IndexMap × IndexMap) :=
  if (m.table.length : Int) < cut ∨ cut < 0 then Except.error JsErr.range
  else
    match splitEntries m.table (m.indices.drop cut.toNat) 0 with
    | Except.error e => Except.error e
    | Except.ok entries =>
        Except.ok (m.truncate cut.toNat, ⟨entries, m.indices.drop cut.toNat⟩)

/-- Well-formedness facts every reachable, uncorrupted map satisfies: the
order array and the table have the same size and every order-array key has a
bucket (invariant I2 of the specification, as far as the non-null assertions
need it). -/
def WF (m : IndexMap) : Prop :=
  m.table.length = m.indices.length ∧ ∀ k ∈ m.indices, mapFind m.table k ≠ none

instance (m : IndexMap) : Decidable m.WF := by
  unfold WF
  infer_instance

/-- Invariant I1 of the specification, as a boolean check: every order-array
slot `i` holds a key whose bucket stores index `i`. -/
def i1Holds (m : IndexMap) : Bool :=
  m.indices.enum.all fun p =>
    match mapFind m.table p.2 with
    | some b => b.idx = (p.1 : Int)
    | none => false

/-- `entries()` as a list: the order array with each key's looked-up value
(`none` marks a slot whose non-null assertion would raise). -/
def entriesList (m : IndexMap) : List (Nat × Option Nat) :=
  m.indices.map fun k => (k, (mapFind m.table k).map Bucket.val)

/-- `values()` as a list. -/
def valuesList (m : IndexMap) : List (Option Nat) :=
  m.indices.map fun k => (mapFind m.table k).map Bucket.val

end IndexMap

/-- The `Splice` adapter state (`iter.ts`): the borrowed table and order array,
the normalized cursor fields `#start`/`#end`, the replacement iterator, and the
crossing cursors `#front`/`#back`. -/
structure SpliceSt where
  table : List (Nat × Bucket)
  indices : List Nat
  start : Int
  stop : Int
  replace : List (Nat × Nat)
  front : Int
  back : Int
deriving DecidableEq

namespace SpliceSt

/-- `map.splice(from, to, replace_with)` → `new Splice(map, indices, from, to, ...)`:
the constructor stores `#start = from - 1`, `#end = to`, `#front = -1`,
`#back = map.size` and performs no range validation (so it cannot raise). -/
def mk1 (m : IndexMap) (a b : Int) (rep : List (Nat × Nat)) : Except JsErr SpliceSt :=
  Except.ok ⟨m.table, m.indices, a - 1, b, rep, -1, (m.table.length : Int)⟩

/-- `Splice.#splice(i, k, v)`: read the displaced key and value, overwrite
`#indices[i]` with the new key, delete the old bucket when the old key equals
the new one (the source's guard is `old_key === k`), insert the new bucket at
stored index `i`, and yield the displaced pair. -/
def step (s : SpliceSt) (i : Int) (k v : Nat) : Except JsErr (SpliceSt × (Nat × Nat)) :=
  match jsGet s.indices i with
  | none => Except.error JsErr.type
  | some oldKey =>
      match mapFind s.table oldKey with
      | none => Except.error JsErr.type
      | some ob =>
          let ind := s.indices.set i.toNat k
          let t1 := if oldKey = k then mapDelete s.table oldKey else s.table
          let t2 := mapSet t1 k ⟨i, v⟩
          Except.ok ({ s with indices := ind, table := t2 }, (oldKey, ob.val))

/-- `Splice.next()`: advance `#front`, stop when the cursors crossed, advance
`#start`, pull a replacement pair, stop when the range or the replacement
source is exhausted, else run `#splice`. -/
def next (s : SpliceSt) : Except JsErr (SpliceSt × Option (Nat × Nat)) :=
  let s1 := { s with front := s.front + 1 }
  if s1.back ≤ s1.front then Except.ok (s1, none)
  else
    let s2 := { s1 with start := s1.start + 1 }
    match s2.replace with
    | [] => Except.ok (s2, none)
    | (k, v) :: rest =>
        let s3 := { s2 with replace := rest }
        if s3.stop < s3.start then Except.ok (s3, none)
        else (s3.step s3.start k v).map fun r => (r.1, some r.2)

end SpliceSt

/-- The `Drain` adapter state (`iter.ts`): the borrowed map, the values taken
so far, and the normalized cursor fields `#start`/`#end`. -/
structure DrainSt where
  map : IndexMap
  taken : List Nat
  start : Int
  stop : Int
deriving DecidableEq

namespace DrainSt

/-- `map.drain(start, end)` → `new Drain(start, end, map)` with `#start = start - 1`. -/
def mk1 (m : IndexMap) (a b : Int) : DrainSt :=
  ⟨m, [], a - 1, b⟩

/-- `Drain.next()`: advance `#start`; when it reaches `#end`, signal done;
otherwise read the entry at the compensated index `#start - #taken.length`
(the non-null assertion raises on a missing entry), record its value, shift
remove its key and yield the pair. -/
def next (d : DrainSt) : Except JsErr (DrainSt × Option (Nat × Nat)) :=
  let d1 := { d with start := d.start + 1 }
  if d1.stop ≤ d1.start then Except.ok (d1, none)
  else
    let index : Int := d1.start - (d1.taken.length : Int)
    match d1.map.getIndexEntryE index with
    | Except.error e => Except.error e
    | Except.ok none => Except.error JsErr.type
    | Except.ok (some (k, v)) =>
        Except.ok ({ d1 with map := d1.map.deleteSt k, taken := d1.taken ++ [v] },
          some (k, v))

/-- Iterate `Drain.next()` until it signals done (with fuel), collecting the
yielded pairs. -/
def run : DrainSt → Nat → Except JsErr (DrainSt × List (Nat × Nat))
  | d, 0 => Except.ok (d, [])
  | d, fuel + 1 =>
      match d.next with
      | Except.error e => Except.error e
      | Except.ok (d2, none) => Except.ok (d2, [])
      | Except.ok (d2, some kv) => (run d2 fuel).map fun r => (r.1, kv :: r.2)

end DrainSt

namespace IndexSet

/-- `IndexSet.has` / `contains`: membership through the backing map's table. -/
def contains (s : IndexMap) (x : Nat) : Bool :=
  (mapFind s.table x).isSome

/-- `IndexSet.hasIndex(index)`: the source compares the backing map's
`getIndex` result (`undefined`, or the stored non-null element) against `null`
with strict equality. -/
def hasIndexE (s : IndexMap) (i : Int) : Except JsErr Bool :=
  (s.getIndexE i).map fun o => jsStrictEq (jsOfOpt o) JsVal.jsnull

/-- One pull of the `Difference` iterator's `next()`: skip elements of the
remaining base iteration that are members of the other set, yielding the first
non-member together with the rest of the iteration. -/
def diffNext : List Nat → IndexMap → Option Nat × List Nat
  | [], _ => (none, [])
  | x :: rest, other =>
      if contains other x then diffNext rest other else (some x, rest)

/-- Pull the `Difference` iterator to exhaustion (with fuel), collecting its
yields. -/
def diffRun : Nat → List Nat → IndexMap → List Nat
  | 0, _, _ => []
  | fuel + 1, l, other =>
      match diffNext l other with
      | (none, _) => []
      | (some x, rest) => x :: diffRun fuel rest other

/-- `difference(A, B)` collected to a list: the iterator starts from `A.iter()`
(the order array of A's backing map) and draws until exhausted. -/
def differenceList (a b : IndexMap) : List Nat :=
  diffRun a.indices.length a.indices b

end IndexSet


/-- C1 (code bug): the claim states that invariant I1 (for every `i`,
`table.get(order[i]).index == i`) holds after every public mutating call.  It
fails on the sequence `set(1,10); set(2,20); set(3,30); swapIndices(0,2);
delete(2)`: I1 still holds after the `swapIndices` call, but after the
`delete`, the order array is `[3, 1]` while key `3`'s bucket stores index `-1`
and key `1`'s bucket stores index `2` — `#removeAndShiftIndices` decrements
buckets by table-iteration position instead of by stored index. -/
theorem claim_C1_i1_violation :
    IndexMap.i1Holds ((IndexMap.ofPairs [(1, 10), (2, 20), (3, 30)]).swapIndices 0 2) = true
    ∧ IndexMap.i1Holds
        (((IndexMap.ofPairs [(1, 10), (2, 20), (3, 30)]).swapIndices 0 2).deleteSt 2) = false
    ∧ (((IndexMap.ofPairs [(1, 10), (2, 20), (3, 30)]).swapIndices 0 2).deleteSt 2).indices
        = [3, 1]
    ∧ mapFind ((((IndexMap.ofPairs [(1, 10), (2, 20), (3, 30)]).swapIndices 0 2).deleteSt
        2)).table 3 = some ⟨-1, 30⟩
    ∧ mapFind ((((IndexMap.ofPairs [(1, 10), (2, 20), (3, 30)]).swapIndices 0 2).deleteSt
        2)).table 1 = some ⟨2, 10⟩ := by
  decide

/-- C2 (code bug): the claim states that a valid `Splice` step deletes the old
hashed key's bucket unless the old and the new key hash to the same key.  On
the map `{1 ↦ 10, 2 ↦ 20}` with `splice(0, 1, [[3, 30]])`, the first `next()`
is a valid step displacing key `1` for the fresh key `3`; the source's guard
`if (old_key === k) delete(old_key)` is the negation of the claimed one, so
key `1`'s bucket survives: afterwards the table holds three buckets
(`1`, `2` and `3`) over an order array of length two. -/
theorem claim_C2_stale_bucket :
    SpliceSt.mk1 (IndexMap.ofPairs [(1, 10), (2, 20)]) 0 1 [(3, 30)]
      = Except.ok ⟨[(1, ⟨0, 10⟩), (2, ⟨1, 20⟩)], [1, 2], -1, 1, [(3, 30)], -1, 2⟩
    ∧ SpliceSt.next ⟨[(1, ⟨0, 10⟩), (2, ⟨1, 20⟩)], [1, 2], -1, 1, [(3, 30)], -1, 2⟩
      = Except.ok (⟨[(1, ⟨0, 10⟩), (2, ⟨1, 20⟩), (3, ⟨0, 30⟩)], [3, 2], 0, 1, [], 0, 2⟩,
          some (1, 10))
    ∧ mapFind [(1, ⟨0, 10⟩), (2, ⟨1, 20⟩), (3, (⟨0, 30⟩ : Bucket))] 1 = some ⟨0, 10⟩ := by
  decide

/-- C5 (code bug): the claim states that draining `[start, end)` of any map of
size `n` leaves the surviving entries only.  On the reachable map built by
`set(1,10); set(2,20); set(3,30); reverse()` (order `[3, 2, 1]`), iterating
`drain(1, 3)` to completion yields the right pairs `[(2,20), (1,10)]` but
leaves a corrupted map: the table holds only key `3` (with stored index `-1`)
while the order array is still `[3, 1]` — the removed key `1` was never
spliced out because its bucket's stored index had been corrupted to `2` by the
previous step's positional `#removeAndShiftIndices`.  `keys()` hence yields
`[3, 1]` instead of `[3]` and `entries()` hits a failed lookup. -/
theorem claim_C5_drain_corruption :
    DrainSt.run (DrainSt.mk1 (IndexMap.reverse (IndexMap.ofPairs [(1, 10), (2, 20), (3, 30)]))
        1 3) 5
      = Except.ok (⟨⟨[(3, ⟨-1, 30⟩)], [3, 1]⟩, [20, 10], 3, 3⟩, [(2, 20), (1, 10)])
    ∧ (IndexMap.entriesList ⟨[(3, ⟨-1, 30⟩)], [3, 1]⟩ = [(3, some 30), (1, none)])
    ∧ ((⟨[(3, ⟨-1, 30⟩)], [3, 1]⟩ : IndexMap).indices.length = 2)
    ∧ ((⟨[(3, ⟨-1, 30⟩)], [3, 1]⟩ : IndexMap).table.length = 1) := by
  decide

/-- C4 counterexample: the claim states that `splice` range construction
raises a range error exactly when the caller-supplied index exceeds the valid
bound.  On a map of size 2, constructing `splice(5, 10, [])` — indices well
past the bound — performs no validation and returns the adapter normally. -/
theorem claim_C4_splice_never_raises :
    SpliceSt.mk1 (IndexMap.ofPairs [(1, 10), (2, 20)]) 5 10 []
      = Except.ok ⟨[(1, ⟨0, 10⟩), (2, ⟨1, 20⟩)], [1, 2], 4, 10, [], -1, 2⟩ := by
  decide

/-- C10 (confirmed): `IndexSet.hasIndex` compares the backing map's `getIndex`
result against `null` with strict equality; since `getIndex` returns either
`undefined` or a stored non-null element, the comparison is false for every
in-range and every out-of-range index, on every well-formed set. -/
theorem claim_C10_hasIndex_false (s : IndexMap) (i : Int) (hwf : s.WF) :
    IndexSet.hasIndexE s i = Except.ok false := by
  have hok : ∃ o, s.getIndexE i = Except.ok o := by
    rw [IndexMap.getIndexE]
    by_cases h : oob i s.table.length = true
    · rw [if_pos h]
      exact ⟨none, rfl⟩
    · rw [if_neg h]
      simp only [oob, Bool.or_eq_true, decide_eq_true_eq, not_or] at h
      have hilen : i.toNat < s.indices.length := by
        rw [← hwf.1]
        omega
      rcases hk : jsGet s.indices i with _ | k
      · exfalso
        rw [jsGet, if_neg (by omega)] at hk
        rw [List.getElem?_eq_none_iff] at hk
        omega
      · have hkmem : k ∈ s.indices := by
          rw [jsGet, if_neg (by omega)] at hk
          exact List.mem_iff_getElem?.2 ⟨i.toNat, hk⟩
        rcases hb : mapFind s.table k with _ | b
        · exact absurd hb (hwf.2 k hkmem)
        · refine ⟨some b.val, ?_⟩
          simp [hb]
  obtain ⟨o, ho⟩ := hok
  rw [IndexSet.hasIndexE, ho]
  cases o
  · rfl
  · rfl

/-- C10 witness: the theorem applied to a concrete singleton set and both an
occupied index and an out-of-range index. -/
theorem claim_C10_hasIndex_false_witness :
    IndexSet.hasIndexE (IndexMap.ofPairs [(4, 4)]) 0 = Except.ok false
    ∧ IndexSet.hasIndexE (IndexMap.ofPairs [(4, 4)]) 9 = Except.ok false :=
  ⟨claim_C10_hasIndex_false (IndexMap.ofPairs [(4, 4)]) 0 (by decide),
   claim_C10_hasIndex_false (IndexMap.ofPairs [(4, 4)]) 9 (by decide)⟩


/-! Specification-side helpers: association-list views of the table, the
position function `posOf`, the canonical well-formed states `pstate`, and the
pure list operation `listMove` describing relocation. -/

/-- First value bound to `k` in a key-value list. -/
def assocFind : List (Nat × Nat) → Nat → Option Nat
  | [], _ => none
  | (k2, v) :: rest, k => if k2 = k then some v else assocFind rest k

/-- Remove the first pair bound to `k` in a key-value list. -/
def assocErase : List (Nat × Nat) → Nat → List (Nat × Nat)
  | [], _ => []
  | (k2, v) :: rest, k => if k2 = k then rest else (k2, v) :: assocErase rest k

/-- Position of the first occurrence of `k` (the list length when absent). -/
def posOf : List Nat → Nat → Nat
  | [], _ => 0
  | k2 :: rest, k => if k2 = k then 0 else posOf rest k + 1

/-- Insert `x` so that it ends up at position `i`. -/
def insertAt (l : List Nat) (i : Nat) (x : Nat) : List Nat :=
  l.take i ++ x :: l.drop i

/-- Relocate the element at position `a` to position `b`, shifting the
elements strictly between them by one slot. -/
def listMove (l : List Nat) (a b : Nat) : List Nat :=
  match l[a]? with
  | none => l
  | some x => insertAt (l.eraseIdx a) b x

/-- The table of a well-formed map: the entries of `ts` in table-insertion
order, each key's bucket carrying the stored index `f k`. -/
def ptable (ts : List (Nat × Nat)) (f : Nat → Int) : List (Nat × Bucket) :=
  ts.map fun p => (p.1, ⟨f p.1, p.2⟩)

/-- A well-formed map state: table entries `ts` in table-insertion order,
order array `ind`, every stored index equal to the key's position in `ind`
(invariant I1). -/
def pstate (ts : List (Nat × Nat)) (ind : List Nat) : IndexMap :=
  ⟨ptable ts (fun k => ((posOf ind k : Nat) : Int)), ind⟩

/-- The abstract well-formedness facts (invariants I2/I3): distinct order
keys, distinct table keys, equal sizes, same key sets. -/
def WFp (ts : List (Nat × Nat)) (ind : List Nat) : Prop :=
  ind.Nodup ∧ (ts.map Prod.fst).Nodup ∧ ind.length = ts.length
    ∧ ∀ k, k ∈ ind ↔ k ∈ ts.map Prod.fst

theorem posOf_getElem? {l : List Nat} {k : Nat} (h : k ∈ l) : l[posOf l k]? = some k := by
  induction l with
  | nil => cases h
  | cons x rest ih =>
      by_cases hx : x = k
      · simp [posOf, hx]
      · rcases List.mem_cons.1 h with h1 | h1
        · exact absurd h1.symm hx
        · simpa [posOf, hx] using ih h1

theorem posOf_lt_length {l : List Nat} {k : Nat} (h : k ∈ l) : posOf l k < l.length := by
  induction l with
  | nil => cases h
  | cons x rest ih =>
      by_cases hx : x = k
      · simp [posOf, hx]
      · rcases List.mem_cons.1 h with h1 | h1
        · exact absurd h1.symm hx
        · simpa [posOf, hx, Nat.succ_lt_succ_iff] using ih h1

theorem posOf_eq_of_getElem? {l : List Nat} {k : Nat} {i : Nat} (hnd : l.Nodup)
    (h : l[i]? = some k) : posOf l k = i := by
  induction l generalizing i with
  | nil => simp at h
  | cons x rest ih =>
      cases i with
      | zero =>
          simp only [List.getElem?_cons_zero, Option.some.injEq] at h
          simp [posOf, h]
      | succ i =>
          simp only [List.getElem?_cons_succ] at h
          have hmem : k ∈ rest := List.mem_iff_getElem?.2 ⟨i, h⟩
          have hx : x ≠ k := fun he => (List.nodup_cons.1 hnd).1 (he ▸ hmem)
          simp [posOf, hx, ih (List.nodup_cons.1 hnd).2 h]

theorem posOf_append_left {l1 l2 : List Nat} {k : Nat} (h : k ∈ l1) :
    posOf (l1 ++ l2) k = posOf l1 k := by
  induction l1 with
  | nil => cases h
  | cons x rest ih =>
      by_cases hx : x = k
      · simp [posOf, hx]
      · rcases List.mem_cons.1 h with h1 | h1
        · exact absurd h1.symm hx
        · simp [posOf, hx, ih h1]

theorem posOf_append_right {l1 l2 : List Nat} {k : Nat} (h : k ∉ l1) :
    posOf (l1 ++ l2) k = l1.length + posOf l2 k := by
  induction l1 with
  | nil => simp
  | cons x rest ih =>
      have hx : x ≠ k := fun he => h (he ▸ List.mem_cons_self x rest)
      have h2 : k ∉ rest := fun hm => h (List.mem_cons_of_mem x hm)
      simp [posOf, hx, ih h2]
      omega

theorem posOf_eraseIdx {l : List Nat} (hnd : l.Nodup) {j : Nat} {kj : Nat}
    (hj : l[j]? = some kj) {k : Nat} (hk : k ∈ l) (hne : k ≠ kj) :
    posOf (l.eraseIdx j) k = if posOf l k < j then posOf l k else posOf l k - 1 := by
  induction l generalizing j with
  | nil => cases hk
  | cons x rest ih =>
      cases j with
      | zero =>
          simp only [List.getElem?_cons_zero, Option.some.injEq] at hj
          have hx : x ≠ k := fun he => hne (by rw [← he, hj])
          rcases List.mem_cons.1 hk with h1 | h1
          · exact absurd h1.symm hx
          · simp [List.eraseIdx, posOf, hx]
      | succ j =>
          simp only [List.getElem?_cons_succ] at hj
          by_cases hx : x = k
          · subst hx
            have e1 : posOf (x :: rest.eraseIdx j) x = 0 := by simp [posOf]
            have e2 : posOf (x :: rest) x = 0 := by simp [posOf]
            rw [List.eraseIdx_cons_succ, e1, e2, if_pos (Nat.succ_pos j)]
          · rcases List.mem_cons.1 hk with h1 | h1
            · exact absurd h1.symm hx
            · have hrec := ih (List.nodup_cons.1 hnd).2 hj h1
              have hposne : posOf rest k ≠ j := by
                intro he
                have h2 := posOf_getElem? h1
                rw [he, hj] at h2
                exact hne (Option.some.inj h2).symm
              have e1 : posOf (x :: rest.eraseIdx j) k = posOf (rest.eraseIdx j) k + 1 := by
                simp [posOf, hx]
              have e2 : posOf (x :: rest) k = posOf rest k + 1 := by
                simp [posOf, hx]
              rw [List.eraseIdx_cons_succ, e1, e2, hrec]
              by_cases hlt : posOf rest k < j
              · rw [if_pos hlt, if_pos (by omega)]
              · rw [if_neg hlt, if_neg (by omega)]
                omega

theorem eraseIdx_last_eq_take (l : List Nat) (h : l ≠ []) :
    l.eraseIdx (l.length - 1) = l.take (l.length - 1) := by
  induction l with
  | nil => simp at h
  | cons x rest ih =>
      cases rest with
      | nil => rfl
      | cons y r2 =>
          have := ih (by simp)
          simpa [List.eraseIdx, List.take] using this

theorem assocFind_of_mem {ts : List (Nat × Nat)} {k : Nat} (h : k ∈ ts.map Prod.fst) :
    ∃ v, assocFind ts k = some v := by
  induction ts with
  | nil => simp at h
  | cons p rest ih =>
      by_cases hx : p.1 = k
      · exact ⟨p.2, by simp [assocFind, hx]⟩
      · rcases List.mem_map.1 h with ⟨q, hq, hqk⟩
        rcases List.mem_cons.1 hq with h1 | h1
        · exact absurd (h1 ▸ hqk) hx
        · obtain ⟨v, hv⟩ := ih (List.mem_map.2 ⟨q, h1, hqk⟩)
          exact ⟨v, by simp [assocFind, hx, hv]⟩

theorem assocFind_assocErase_ne {ts : List (Nat × Nat)} {k k2 : Nat} (h : k ≠ k2) :
    assocFind (assocErase ts k2) k = assocFind ts k := by
  induction ts with
  | nil => rfl
  | cons p rest ih =>
      obtain ⟨pk, pv⟩ := p
      by_cases h2 : pk = k2
      · subst h2
        have hpk : pk ≠ k := fun he => h he.symm
        simp [assocErase, assocFind, hpk]
      · by_cases hk : pk = k
        · subst hk
          simp [assocErase, assocFind, h2, h]
        · simp [assocErase, assocFind, h2, hk, ih]

theorem map_fst_assocErase {ts : List (Nat × Nat)} {k : Nat} :
    (assocErase ts k).map Prod.fst = (ts.map Prod.fst).erase k := by
  induction ts with
  | nil => rfl
  | cons p rest ih =>
      by_cases h2 : p.1 = k
      · simp [assocErase, h2, List.erase_cons_head]
      · rw [show ((p :: rest).map Prod.fst) = p.1 :: rest.map Prod.fst from rfl,
          List.erase_cons_tail (not_beq_of_ne h2)]
        simp [assocErase, h2, ih]

theorem length_assocErase_of_mem {ts : List (Nat × Nat)} {k : Nat}
    (h : k ∈ ts.map Prod.fst) : (assocErase ts k).length = ts.length - 1 := by
  induction ts with
  | nil => simp at h
  | cons p rest ih =>
      by_cases h2 : p.1 = k
      · simp [assocErase, h2]
      · rcases List.mem_map.1 h with ⟨q, hq, hqk⟩
        rcases List.mem_cons.1 hq with h1 | h1
        · exact absurd (h1 ▸ hqk) h2
        · have hmem : k ∈ rest.map Prod.fst := List.mem_map.2 ⟨q, h1, hqk⟩
          have hlen : 0 < rest.length := by
            rcases rest with _ | _
            · simp at hmem
            · simp
          simp [assocErase, h2, ih hmem]
          omega


/-- Position permutation performed by a slot swap. -/
def swapPos (a b j : Nat) : Nat :=
  if j = a then b else if j = b then a else j

theorem swapPos_swapPos (a b j : Nat) : swapPos a b (swapPos a b j) = j := by
  simp only [swapPos]
  split_ifs <;> omega

theorem swapPos_lt {n a b j : Nat} (ha : a < n) (hb : b < n) (hj : j < n) :
    swapPos a b j < n := by
  simp only [swapPos]
  split_ifs <;> omega

theorem length_swapArr (l : List Nat) (a b : Nat) : (swapArr l a b).length = l.length := by
  unfold swapArr
  rcases h1 : l[a]? with _ | xa
  · rfl
  · rcases h2 : l[b]? with _ | xb
    · rfl
    · simp

theorem getElem?_swapArr {l : List Nat} {a b : Nat} (ha : a < l.length) (hb : b < l.length)
    (j : Nat) : (swapArr l a b)[j]? = l[swapPos a b j]? := by
  rcases hxa : l[a]? with _ | xa
  · rw [List.getElem?_eq_none_iff] at hxa
    omega
  rcases hxb : l[b]? with _ | xb
  · rw [List.getElem?_eq_none_iff] at hxb
    omega
  unfold swapArr
  rw [hxa, hxb]
  show ((l.set b xa).set a xb)[j]? = l[swapPos a b j]?
  rw [List.getElem?_set, List.getElem?_set, List.length_set, swapPos]
  by_cases hja : j = a
  · rw [if_pos hja.symm, if_pos (by omega), if_pos hja, hxb]
  · rw [if_neg (fun h => hja h.symm), if_neg hja]
    by_cases hjb : j = b
    · rw [if_pos hjb.symm, if_pos (by omega), if_pos hjb, hxa]
    · rw [if_neg (fun h => hjb h.symm), if_neg hjb]

theorem mem_swapArr_iff {l : List Nat} {a b : Nat} (ha : a < l.length) (hb : b < l.length)
    (x : Nat) : x ∈ swapArr l a b ↔ x ∈ l := by
  constructor
  · intro hx
    obtain ⟨j, hj⟩ := List.mem_iff_getElem?.1 hx
    rw [getElem?_swapArr ha hb] at hj
    exact List.mem_iff_getElem?.2 ⟨swapPos a b j, hj⟩
  · intro hx
    obtain ⟨j, hj⟩ := List.mem_iff_getElem?.1 hx
    refine List.mem_iff_getElem?.2 ⟨swapPos a b j, ?_⟩
    rw [getElem?_swapArr ha hb, swapPos_swapPos]
    exact hj

theorem swapArr_nodup {l : List Nat} {a b : Nat} (ha : a < l.length) (hb : b < l.length)
    (h : l.Nodup) : (swapArr l a b).Nodup := by
  have hlen := length_swapArr l a b
  rw [List.nodup_iff_injective_get] at h ⊢
  intro j1 j2 heq
  have h1 : (swapArr l a b)[(j1 : Nat)]? = some ((swapArr l a b).get j1) := by
    rw [List.getElem?_eq_getElem j1.isLt]
    rfl
  have h2 : (swapArr l a b)[(j2 : Nat)]? = some ((swapArr l a b).get j2) := by
    rw [List.getElem?_eq_getElem j2.isLt]
    rfl
  rw [getElem?_swapArr ha hb] at h1 h2
  have hs1 : swapPos a b (j1 : Nat) < l.length :=
    swapPos_lt ha hb (by omega)
  have hs2 : swapPos a b (j2 : Nat) < l.length :=
    swapPos_lt ha hb (by omega)
  rw [List.getElem?_eq_getElem hs1] at h1
  rw [List.getElem?_eq_getElem hs2] at h2
  have hget : l.get ⟨swapPos a b (j1 : Nat), hs1⟩ = l.get ⟨swapPos a b (j2 : Nat), hs2⟩ := by
    have e1 := Option.some.inj h1
    have e2 := Option.some.inj h2
    show l[swapPos a b (j1 : Nat)] = l[swapPos a b (j2 : Nat)]
    rw [e1, e2, heq]
  have := Fin.mk.injEq (swapPos a b (j1 : Nat)) hs1 (swapPos a b (j2 : Nat)) hs2 ▸
    congrArg Fin.val (h hget)
  have hval : swapPos a b (j1 : Nat) = swapPos a b (j2 : Nat) := congrArg Fin.val (h hget)
  have : (j1 : Nat) = (j2 : Nat) := by
    have := congrArg (swapPos a b) hval
    rwa [swapPos_swapPos, swapPos_swapPos] at this
  exact Fin.ext this

theorem eraseIdx_set_self (l : List Nat) (i : Nat) (x : Nat) :
    (l.set i x).eraseIdx i = l.eraseIdx i := by
  induction l generalizing i with
  | nil => rfl
  | cons y r ih =>
      cases i with
      | zero => rfl
      | succ i =>
          show y :: (r.set i x).eraseIdx i = y :: r.eraseIdx i
          rw [ih]

theorem eraseIdx_set_lt (l : List Nat) {i j : Nat} (x : Nat) (h : i < j) :
    (l.set i x).eraseIdx j = (l.eraseIdx j).set i x := by
  induction l generalizing i j with
  | nil => rfl
  | cons y r ih =>
      cases j with
      | zero => omega
      | succ j =>
          cases i with
          | zero => rfl
          | succ i =>
              show y :: (r.set i x).eraseIdx j = y :: (r.eraseIdx j).set i x
              rw [ih (by omega)]

theorem eraseIdx_set_gt (l : List Nat) : ∀ {i j : Nat} (x : Nat), j < i →
    (l.set i x).eraseIdx j = (l.eraseIdx j).set (i - 1) x := by
  induction l with
  | nil => intro i j x _; rfl
  | cons y r ih =>
      intro i j x h
      cases j with
      | zero =>
          cases i with
          | zero => omega
          | succ i2 =>
              show r.set i2 x = r.set (i2 + 1 - 1) x
              rfl
      | succ j2 =>
          cases i with
          | zero => omega
          | succ i2 =>
              cases i2 with
              | zero => omega
              | succ i3 =>
                  show y :: (r.set (i3 + 1) x).eraseIdx j2
                      = y :: (r.eraseIdx j2).set i3 x
                  rw [ih x (by omega)]
                  rw [show i3 + 1 - 1 = i3 from rfl]

theorem set_eraseIdx_succ (l : List Nat) {j : Nat} {x : Nat} (h : l[j + 1]? = some x) :
    (l.eraseIdx (j + 1)).set j x = l.eraseIdx j := by
  induction l generalizing j with
  | nil => simp at h
  | cons y r ih =>
      cases j with
      | zero =>
          rcases r with _ | ⟨z, r2⟩
          · simp at h
          · simp only [List.getElem?_cons_succ, List.getElem?_cons_zero,
              Option.some.injEq] at h
            show x :: r2 = z :: r2
            rw [h]
      | succ j =>
          simp only [List.getElem?_cons_succ] at h
          show y :: (r.eraseIdx (j + 1)).set j x = y :: r.eraseIdx j
          rw [ih h]

theorem set_eraseIdx_key (l : List Nat) {j : Nat} {x : Nat} (hlen : j + 1 < l.length)
    (h : l[j]? = some x) : (l.eraseIdx j).set j x = l.eraseIdx (j + 1) := by
  induction l generalizing j with
  | nil => simp at h
  | cons y r ih =>
      cases j with
      | zero =>
          simp only [List.getElem?_cons_zero, Option.some.injEq] at h
          rcases r with _ | ⟨z, r2⟩
          · simp at hlen
          · show (z :: r2).set 0 x = y :: (z :: r2).eraseIdx 0
            rw [← h]
            rfl
      | succ j =>
          simp only [List.getElem?_cons_succ] at h
          show y :: (r.eraseIdx j).set j x = y :: r.eraseIdx (j + 1)
          rw [ih (by simpa using hlen) h]

theorem swap_succ_getElem? {l : List Nat} {j : Nat} (h : j + 1 < l.length) :
    (swapArr l j (j + 1))[j + 1]? = l[j]? := by
  rw [getElem?_swapArr (by omega) h]
  have : swapPos j (j + 1) (j + 1) = j := by
    simp only [swapPos]
    split_ifs <;> omega
  rw [this]

theorem swap_succ_eraseIdx {l : List Nat} {j : Nat} (h : j + 1 < l.length) :
    (swapArr l j (j + 1)).eraseIdx (j + 1) = l.eraseIdx j := by
  rcases hxa : l[j]? with _ | xa
  · rw [List.getElem?_eq_none_iff] at hxa
    omega
  rcases hxb : l[j + 1]? with _ | xb
  · rw [List.getElem?_eq_none_iff] at hxb
    omega
  unfold swapArr
  rw [hxa, hxb]
  show ((l.set (j + 1) xa).set j xb).eraseIdx (j + 1) = l.eraseIdx j
  rw [eraseIdx_set_lt _ xb (by omega), eraseIdx_set_self, set_eraseIdx_succ l hxb]

theorem swapArr_comm (l : List Nat) (a b : Nat) : swapArr l a b = swapArr l b a := by
  by_cases hab : a = b
  · rw [hab]
  unfold swapArr
  rcases hxa : l[a]? with _ | xa
  · rcases hxb : l[b]? with _ | xb
    · rfl
    · rfl
  · rcases hxb : l[b]? with _ | xb
    · rfl
    · show (l.set b xa).set a xb = (l.set a xb).set b xa
      rw [List.set_comm _ _ _ (fun h => hab h.symm)]

theorem swap_pred_getElem? {l : List Nat} {j : Nat} (h : j + 1 < l.length) :
    (swapArr l (j + 1) j)[j]? = l[j + 1]? := by
  rw [getElem?_swapArr h (by omega)]
  have : swapPos (j + 1) j j = j + 1 := by
    simp only [swapPos]
    split_ifs <;> omega
  rw [this]

theorem swap_pred_eraseIdx {l : List Nat} {j : Nat} (h : j + 1 < l.length) :
    (swapArr l (j + 1) j).eraseIdx j = l.eraseIdx (j + 1) := by
  rw [swapArr_comm]
  rcases hxa : l[j]? with _ | xa
  · rw [List.getElem?_eq_none_iff] at hxa
    omega
  rcases hxb : l[j + 1]? with _ | xb
  · rw [List.getElem?_eq_none_iff] at hxb
    omega
  unfold swapArr
  rw [hxa, hxb]
  show ((l.set (j + 1) xa).set j xb).eraseIdx j = l.eraseIdx (j + 1)
  rw [eraseIdx_set_self, eraseIdx_set_gt _ xa (by omega)]
  show (l.eraseIdx j).set j xa = _
  exact set_eraseIdx_key l h hxa

/-- The pure effect on the order array of the `#shiftUp` swap walk. -/
def chainUpArr (l : List Nat) (a : Nat) : Nat → List Nat
  | 0 => l
  | t + 1 => chainUpArr (swapArr l a (a + 1)) (a + 1) t

/-- The pure effect on the order array of the `#shiftDown` swap walk. -/
def chainDownArr (l : List Nat) (j : Nat) : Nat → List Nat
  | 0 => l
  | t + 1 => chainDownArr (swapArr l (j + 1) j) (j - 1) t

theorem insertAt_eraseIdx_self :
    ∀ (l : List Nat) (a : Nat) (x : Nat), l[a]? = some x →
      insertAt (l.eraseIdx a) a x = l := by
  intro l
  induction l with
  | nil => intro a x hx; simp at hx
  | cons y r ih =>
      intro a x hx
      cases a with
      | zero =>
          simp only [List.getElem?_cons_zero, Option.some.injEq] at hx
          simp [insertAt, hx]
      | succ a =>
          simp only [List.getElem?_cons_succ] at hx
          show y :: ((r.eraseIdx a).take a ++ x :: (r.eraseIdx a).drop a) = y :: r
          rw [show (r.eraseIdx a).take a ++ x :: (r.eraseIdx a).drop a
              = insertAt (r.eraseIdx a) a x from rfl, ih a x hx]

theorem listMove_self {l : List Nat} {a : Nat} (h : a < l.length) : listMove l a a = l := by
  rcases hx : l[a]? with _ | x
  · rw [List.getElem?_eq_none_iff] at hx
    omega
  unfold listMove
  rw [hx]
  exact insertAt_eraseIdx_self l a x hx

theorem listMove_swap_up {l : List Nat} {a c : Nat} (h : a + 1 < l.length) :
    listMove (swapArr l a (a + 1)) (a + 1) c = listMove l a c := by
  rcases hx : l[a]? with _ | x
  · rw [List.getElem?_eq_none_iff] at hx
    omega
  unfold listMove
  rw [swap_succ_getElem? h, hx]
  show insertAt ((swapArr l a (a + 1)).eraseIdx (a + 1)) c x = insertAt (l.eraseIdx a) c x
  rw [swap_succ_eraseIdx h]

theorem listMove_swap_down {l : List Nat} {j c : Nat} (h : j + 1 < l.length) :
    listMove (swapArr l (j + 1) j) j c = listMove l (j + 1) c := by
  rcases hx : l[j + 1]? with _ | x
  · rw [List.getElem?_eq_none_iff] at hx
    omega
  unfold listMove
  rw [swap_pred_getElem? h, hx]
  show insertAt ((swapArr l (j + 1) j).eraseIdx j) c x = insertAt (l.eraseIdx (j + 1)) c x
  rw [swap_pred_eraseIdx h]

theorem chainUp_eq_listMove :
    ∀ (t : Nat) (l : List Nat) (a : Nat), a + t < l.length →
      chainUpArr l a t = listMove l a (a + t) := by
  intro t
  induction t with
  | zero =>
      intro l a h
      show l = listMove l a (a + 0)
      rw [Nat.add_zero]
      exact (listMove_self (by omega)).symm
  | succ t ih =>
      intro l a h
      show chainUpArr (swapArr l a (a + 1)) (a + 1) t = _
      rw [ih (swapArr l a (a + 1)) (a + 1) (by rw [length_swapArr]; omega)]
      rw [listMove_swap_up (by omega)]
      congr 1
      omega

theorem chainDown_eq_listMove :
    ∀ (t : Nat) (l : List Nat) (j : Nat), t ≤ j + 1 → j + 1 < l.length →
      chainDownArr l j t = listMove l (j + 1) (j + 1 - t) := by
  intro t
  induction t with
  | zero =>
      intro l j _ h
      show l = listMove l (j + 1) (j + 1 - 0)
      rw [Nat.sub_zero]
      exact (listMove_self (by omega)).symm
  | succ t ih =>
      intro l j ht h
      cases j with
      | zero =>
          have ht0 : t = 0 := by omega
          subst ht0
          show swapArr l 1 0 = listMove l (0 + 1) (0 + 1 - (0 + 1))
          have h2 : (0 : Nat) + 1 < l.length := h
          have hd := listMove_swap_down (l := l) (j := 0) (c := 0) h2
          calc swapArr l 1 0
              = listMove (swapArr l 1 0) 0 0 :=
                (listMove_self (by rw [length_swapArr]; omega)).symm
            _ = listMove l (0 + 1) (0 + 1 - (0 + 1)) := hd
      | succ j =>
          show chainDownArr (swapArr l (j + 1 + 1) (j + 1)) j t = _
          rw [ih (swapArr l (j + 1 + 1) (j + 1)) j (by omega)
            (by rw [length_swapArr]; omega)]
          rw [listMove_swap_down (by omega)]
          congr 1
          omega



theorem pstate_table (ts : List (Nat × Nat)) (ind : List Nat) :
    (pstate ts ind).table = ptable ts (fun k => ((posOf ind k : Nat) : Int)) := rfl

theorem pstate_indices (ts : List (Nat × Nat)) (ind : List Nat) :
    (pstate ts ind).indices = ind := rfl

theorem length_ptable (ts : List (Nat × Nat)) (f : Nat → Int) :
    (ptable ts f).length = ts.length := by
  simp [ptable]

theorem ptable_nil (f : Nat → Int) : ptable [] f = [] := rfl

theorem ptable_cons (p : Nat × Nat) (rest : List (Nat × Nat)) (f : Nat → Int) :
    ptable (p :: rest) f = (p.1, ⟨f p.1, p.2⟩) :: ptable rest f := rfl

theorem bucket_idx_mk (i : Int) (v : Nat) : (⟨i, v⟩ : Bucket).idx = i := rfl

theorem mapFind_ptable (ts : List (Nat × Nat)) (f : Nat → Int) (k : Nat) :
    mapFind (ptable ts f) k = (assocFind ts k).map fun v => (⟨f k, v⟩ : Bucket) := by
  induction ts with
  | nil => rfl
  | cons p rest ih =>
      rw [ptable_cons]
      by_cases h : p.1 = k
      · simp [mapFind, assocFind, h]
      · simp only [mapFind, assocFind, if_neg h]
        exact ih

theorem mapDelete_ptable (ts : List (Nat × Nat)) (f : Nat → Int) (k : Nat) :
    mapDelete (ptable ts f) k = ptable (assocErase ts k) f := by
  induction ts with
  | nil => rfl
  | cons p rest ih =>
      rw [ptable_cons]
      by_cases h : p.1 = k
      · simp [mapDelete, assocErase, h]
      · simp only [mapDelete, assocErase, if_neg h, ptable_cons]
        rw [ih]

theorem ptable_congr {ts : List (Nat × Nat)} {f g : Nat → Int}
    (h : ∀ k ∈ ts.map Prod.fst, f k = g k) : ptable ts f = ptable ts g := by
  induction ts with
  | nil => rfl
  | cons p rest ih =>
      have hh : f p.1 = g p.1 := h p.1 (by simp)
      have ht : ∀ k ∈ rest.map Prod.fst, f k = g k := fun k hk => h k (by simp [hk])
      rw [ptable_cons, ptable_cons, hh, ih ht]

theorem mapSetIdx_ptable {ts : List (Nat × Nat)} (hnd : (ts.map Prod.fst).Nodup)
    (f : Nat → Int) (k : Nat) (i : Int) :
    mapSetIdx (ptable ts f) k i = ptable ts (fun k2 => if k2 = k then i else f k2) := by
  induction ts with
  | nil => rfl
  | cons p rest ih =>
      rw [List.map_cons, List.nodup_cons] at hnd
      by_cases h : p.1 = k
      · subst h
        have hcong : ptable rest f
            = ptable rest (fun k2 => if k2 = p.1 then i else f k2) := by
          refine ptable_congr fun k2 hk2 => ?_
          rw [if_neg (fun he => hnd.1 (by rw [← he]; exact hk2))]
        rw [ptable_cons,
          show mapSetIdx ((p.1, (⟨f p.1, p.2⟩ : Bucket)) :: ptable rest f) p.1 i
            = (p.1, (⟨i, p.2⟩ : Bucket)) :: ptable rest f from by simp [mapSetIdx],
          ptable_cons]
        rw [if_pos rfl, hcong]
      · rw [ptable_cons,
          show mapSetIdx ((p.1, (⟨f p.1, p.2⟩ : Bucket)) :: ptable rest f) k i
            = (p.1, (⟨f p.1, p.2⟩ : Bucket)) :: mapSetIdx (ptable rest f) k i from by
              simp [mapSetIdx, h],
          ih hnd.2, ptable_cons, if_neg h]

theorem swapPos_left (a b : Nat) : swapPos a b a = b := by
  simp [swapPos]

theorem swapPos_right (a b : Nat) : swapPos a b b = a := by
  by_cases h : b = a
  · simp [swapPos, h]
  · simp [swapPos, h]

theorem swapPos_other {a b j : Nat} (h1 : j ≠ a) (h2 : j ≠ b) : swapPos a b j = j := by
  simp [swapPos, h1, h2]

theorem swapIndices_pstate {ts : List (Nat × Nat)} {ind : List Nat} (h : WFp ts ind)
    {a b : Nat} (ha : a < ts.length) (hb : b < ts.length) :
    (pstate ts ind).swapIndices (a : Int) (b : Int) = pstate ts (swapArr ind a b) := by
  obtain ⟨hndI, hndT, hlen, hiff⟩ := h
  have haI : a < ind.length := by omega
  have hbI : b < ind.length := by omega
  rcases hka : ind[a]? with _ | kt
  · rw [List.getElem?_eq_none_iff] at hka
    omega
  rcases hkb : ind[b]? with _ | kf
  · rw [List.getElem?_eq_none_iff] at hkb
    omega
  have hktmem : kt ∈ ind := List.mem_iff_getElem?.2 ⟨a, hka⟩
  have hkfmem : kf ∈ ind := List.mem_iff_getElem?.2 ⟨b, hkb⟩
  obtain ⟨vt, hvt⟩ := assocFind_of_mem ((hiff kt).1 hktmem)
  obtain ⟨vf, hvf⟩ := assocFind_of_mem ((hiff kf).1 hkfmem)
  have hpt : posOf ind kt = a := posOf_eq_of_getElem? hndI hka
  have hpf : posOf ind kf = b := posOf_eq_of_getElem? hndI hkb
  have hnd2 : (swapArr ind a b).Nodup := swapArr_nodup haI hbI hndI
  have e1 : jsGet (swapArr ind a b) (a : Int) = some kf := by
    rw [jsGet, if_neg (by omega)]
    rw [show ((a : Int)).toNat = a from Int.toNat_natCast a]
    rw [getElem?_swapArr haI hbI, swapPos_left]
    exact hkb
  have e2 : jsGet (swapArr ind a b) (b : Int) = some kt := by
    rw [jsGet, if_neg (by omega)]
    rw [show ((b : Int)).toNat = b from Int.toNat_natCast b]
    rw [getElem?_swapArr haI hbI, swapPos_right]
    exact hka
  have efindf : mapFind (ptable ts (fun k => ((posOf ind k : Nat) : Int))) kf
      = some ⟨(b : Int), vf⟩ := by
    rw [mapFind_ptable, hvf]
    simp [hpf]
  have efindt : mapFind (ptable ts (fun k => ((posOf ind k : Nat) : Int))) kt
      = some ⟨(a : Int), vt⟩ := by
    rw [mapFind_ptable, hvt]
    simp [hpt]
  have hguard : ¬((a : Int) > ((ptable ts (fun k => ((posOf ind k : Nat) : Int))).length : Int) - 1
      ∨ (b : Int) > ((ptable ts (fun k => ((posOf ind k : Nat) : Int))).length : Int) - 1
      ∨ (a : Int) < 0 ∨ (b : Int) < 0) := by
    rw [length_ptable]
    omega
  simp only [IndexMap.swapIndices, pstate_table, pstate_indices]
  rw [if_neg hguard]
  rw [show ((a : Int)).toNat = a from Int.toNat_natCast a,
    show ((b : Int)).toNat = b from Int.toNat_natCast b]
  rw [e1, e2]
  split
  · rename_i kfv ktv hqf hqt
    injection hqf with hqf2
    injection hqt with hqt2
    subst hqf2
    subst hqt2
    rw [efindf, efindt]
    split
    · rename_i bfv btv hbf hbt
      injection hbf with hbf2
      injection hbt with hbt2
      subst hbf2
      subst hbt2
      simp only [bucket_idx_mk]
      conv_rhs => rw [pstate]
      refine congrArg (fun t => IndexMap.mk t (swapArr ind a b)) ?_
      rw [mapSetIdx_ptable hndT, mapSetIdx_ptable hndT]
      refine ptable_congr fun k hk => ?_
      by_cases hkt : k = kt
      · subst hkt
        rw [if_pos rfl]
        have hgb : (swapArr ind a b)[b]? = some k := by
          rw [getElem?_swapArr haI hbI, swapPos_right]
          exact hka
        rw [posOf_eq_of_getElem? hnd2 hgb]
      · by_cases hkf : k = kf
        · subst hkf
          rw [if_neg hkt, if_pos rfl]
          have hga : (swapArr ind a b)[a]? = some k := by
            rw [getElem?_swapArr haI hbI, swapPos_left]
            exact hkb
          rw [posOf_eq_of_getElem? hnd2 hga]
        · rw [if_neg hkt, if_neg hkf]
          have hkmem : k ∈ ind := (hiff k).2 hk
          have hj : ind[posOf ind k]? = some k := posOf_getElem? hkmem
          have hja : posOf ind k ≠ a := by
            intro he
            rw [he, hka] at hj
            exact hkt (Option.some.inj hj).symm
          have hjb : posOf ind k ≠ b := by
            intro he
            rw [he, hkb] at hj
            exact hkf (Option.some.inj hj).symm
          have hgj : (swapArr ind a b)[posOf ind k]? = some k := by
            rw [getElem?_swapArr haI hbI, swapPos_other hja hjb]
            exact posOf_getElem? hkmem
          rw [posOf_eq_of_getElem? hnd2 hgj]
    · rename_i hcontra
      exact (hcontra ⟨(b : Int), vf⟩ ⟨(a : Int), vt⟩ rfl rfl).elim
  · rename_i hcontra
    exact (hcontra kf kt rfl rfl).elim


theorem assocFind_eq_none {ts : List (Nat × Nat)} {k : Nat} (h : k ∉ ts.map Prod.fst) :
    assocFind ts k = none := by
  induction ts with
  | nil => rfl
  | cons p rest ih =>
      have hp : p.1 ≠ k := fun he => h (by simp [he])
      simp only [assocFind, if_neg hp]
      exact ih (fun hm => h (by simp; exact Or.inr (by simpa using hm)))

theorem mapSet_fresh {t : List (Nat × Bucket)} {k : Nat} (h : mapFind t k = none)
    (b : Bucket) : mapSet t k b = t ++ [(k, b)] := by
  induction t with
  | nil => rfl
  | cons p rest ih =>
      rcases p with ⟨pk, pb⟩
      by_cases hp : pk = k
      · subst hp
        simp [mapFind] at h
      · have h2 : mapFind rest k = none := by
          simpa [mapFind, hp] using h
        simp [mapSet, hp, ih h2]

theorem ptable_append (xs ys : List (Nat × Nat)) (f : Nat → Int) :
    ptable (xs ++ ys) f = ptable xs f ++ ptable ys f := by
  simp [ptable]

theorem popVal_pstate {ts : List (Nat × Nat)} {ind : List Nat} (h : WFp ts ind)
    (hpos : 0 < ts.length) {klast vlast : Nat}
    (hlast : ind[ts.length - 1]? = some klast)
    (hv : assocFind ts klast = some vlast) :
    (pstate ts ind).popVal
      = (pstate (assocErase ts klast) (ind.eraseIdx (ts.length - 1)), some vlast) := by
  obtain ⟨hndI, hndT, hlen, hiff⟩ := h
  have hklmem : klast ∈ ind := List.mem_iff_getElem?.2 ⟨ts.length - 1, hlast⟩
  have hpk : posOf ind klast = ts.length - 1 := posOf_eq_of_getElem? hndI hlast
  have hfind : mapFind (ptable ts (fun k => ((posOf ind k : Nat) : Int))) klast
      = some ⟨((ts.length - 1 : Nat) : Int), vlast⟩ := by
    rw [mapFind_ptable, hv]
    simp [hpk]
  have hlen2 : (assocErase ts klast).length = ts.length - 1 :=
    length_assocErase_of_mem ((hiff klast).1 hklmem)
  have hstart : jsSpliceStart ind.length (((ts.length - 1 : Nat) : Nat) : Int)
      = ts.length - 1 := by
    rw [jsSpliceStart, if_neg (by omega)]
    rw [Int.toNat_natCast]
    omega
  simp only [IndexMap.popVal, pstate_table, pstate_indices, length_ptable]
  rw [if_pos hpos, hlast]
  split
  · rename_i kv hkv
    injection hkv with hkv2
    subst hkv2
    simp only [IndexMap.deleteVal, pstate_table, pstate_indices]
    rw [hfind]
    split
    · rename_i hcontra
      exact Option.noConfusion hcontra
    · rename_i bv hbv
      injection hbv with hbv2
      subst hbv2
      simp only [IndexMap.shiftRemoveFullUnchecked, bucket_idx_mk, pstate_table,
        pstate_indices]
      rw [mapDelete_ptable]
      rw [show jsSpliceRemove1 ind (((ts.length - 1 : Nat) : Nat) : Int)
          = ind.eraseIdx (ts.length - 1) from by rw [jsSpliceRemove1, hstart]]
      simp only [IndexMap.removeAndShiftIndices, pstate_table, pstate_indices,
        length_ptable]
      rw [if_pos (by rw [hlen2])]
      rw [Prod.mk.injEq]
      refine ⟨?_, rfl⟩
      conv_rhs => rw [pstate]
      refine congrArg (fun t => IndexMap.mk t (ind.eraseIdx (ts.length - 1))) ?_
      refine ptable_congr fun k hk => ?_
      rw [map_fst_assocErase] at hk
      have hk2 : k ≠ klast ∧ k ∈ ts.map Prod.fst := (List.Nodup.mem_erase_iff hndT).1 hk
      have hkmem : k ∈ ind := (hiff k).2 hk2.2
      have hple : posOf ind k < ind.length := posOf_lt_length hkmem
      have hpne : posOf ind k ≠ ts.length - 1 := by
        intro he
        have hj := posOf_getElem? hkmem
        rw [he, hlast] at hj
        exact hk2.1 (Option.some.inj hj).symm
      have herase := posOf_eraseIdx hndI hlast hkmem hk2.1
      rw [herase, if_pos (by omega)]
  · rename_i hcontra
    exact Option.noConfusion hcontra

theorem setSt_pstate_fresh {ts : List (Nat × Nat)} {ind : List Nat}
    (hlen : ind.length = ts.length)
    (hiff : ∀ k2, k2 ∈ ind ↔ k2 ∈ ts.map Prod.fst) {k : Nat} (hk : k ∉ ind) (v : Nat) :
    (pstate ts ind).setSt k v = pstate (ts ++ [(k, v)]) (ind ++ [k]) := by
  have hknot : k ∉ ts.map Prod.fst := fun hm => hk ((hiff k).2 hm)
  have hfind : mapFind (ptable ts (fun k2 => ((posOf ind k2 : Nat) : Int))) k = none := by
    rw [mapFind_ptable, assocFind_eq_none hknot]
    rfl
  simp only [IndexMap.setSt, IndexMap.setVal, pstate_table, pstate_indices, length_ptable]
  rw [hfind]
  split
  · rename_i hcontra
    exact Option.noConfusion hcontra
  · show (⟨mapSet (ptable ts (fun k2 => ((posOf ind k2 : Nat) : Int))) k
        ⟨(ts.length : Int), v⟩, jsArrWrite ind ts.length k⟩ : IndexMap) = _
    rw [mapSet_fresh hfind]
    rw [show jsArrWrite ind ts.length k = ind ++ [k] from by
      rw [jsArrWrite, if_neg (by omega)]]
    conv_rhs => rw [pstate]
    refine congrArg (fun t => IndexMap.mk t (ind ++ [k])) ?_
    rw [ptable_append]
    have hlast : ptable [(k, v)] (fun k2 => ((posOf (ind ++ [k]) k2 : Nat) : Int))
        = [(k, ⟨(ts.length : Int), v⟩)] := by
      rw [ptable_cons, ptable_nil]
      rw [show posOf (ind ++ [k]) k = ind.length + posOf [k] k from posOf_append_right hk]
      rw [show posOf [k] k = 0 from by simp [posOf]]
      simp [hlen]
    rw [hlast]
    refine congrArg (fun t => t ++ [(k, (⟨(ts.length : Int), v⟩ : Bucket))]) ?_
    refine ptable_congr fun k2 hk2 => ?_
    rw [posOf_append_left ((hiff k2).2 hk2)]

theorem WFp_canon {ps : List (Nat × Nat)} (h : (ps.map Prod.fst).Nodup) :
    WFp ps (ps.map Prod.fst) :=
  ⟨h, h, by simp, fun _ => Iff.rfl⟩

theorem WFp_swapArr {ts : List (Nat × Nat)} {ind : List Nat} (h : WFp ts ind)
    {a b : Nat} (ha : a < ts.length) (hb : b < ts.length) :
    WFp ts (swapArr ind a b) := by
  obtain ⟨hndI, hndT, hlen, hiff⟩ := h
  have haI : a < ind.length := by omega
  have hbI : b < ind.length := by omega
  exact ⟨swapArr_nodup haI hbI hndI, hndT, by rw [length_swapArr]; omega,
    fun k => (mem_swapArr_iff haI hbI k).trans (hiff k)⟩

theorem foldl_setSt_canon :
    ∀ (ps acc : List (Nat × Nat)), (((acc ++ ps).map Prod.fst).Nodup) →
      ps.foldl (fun m p => m.setSt p.1 p.2) (pstate acc (acc.map Prod.fst))
        = pstate (acc ++ ps) ((acc ++ ps).map Prod.fst) := by
  intro ps
  induction ps with
  | nil =>
      intro acc _
      simp
  | cons p rest ih =>
      intro acc h
      have hk : p.1 ∉ acc.map Prod.fst := by
        intro hm
        rw [List.map_append, List.nodup_append] at h
        exact h.2.2 hm (by simp)
      have hstep : (pstate acc (acc.map Prod.fst)).setSt p.1 p.2
          = pstate (acc ++ [p]) ((acc ++ [p]).map Prod.fst) := by
        have hfresh := @setSt_pstate_fresh acc (acc.map Prod.fst)
          (by simp) (fun k2 => Iff.rfl) p.1 hk p.2
        have e1 : (acc ++ [p]).map Prod.fst = acc.map Prod.fst ++ [p.1] := by simp
        have e2 : acc ++ [p] = acc ++ [(p.1, p.2)] := by simp
        rw [e1, e2]
        exact hfresh
      show rest.foldl (fun m q => m.setSt q.1 q.2)
        ((pstate acc (acc.map Prod.fst)).setSt p.1 p.2) = _
      rw [hstep]
      have h2 : (((acc ++ [p]) ++ rest).map Prod.fst).Nodup := by
        rw [List.append_assoc]
        simpa using h
      have := ih (acc ++ [p]) h2
      rw [this, List.append_assoc]
      simp

theorem ofPairs_eq_pstate (ps : List (Nat × Nat)) (h : (ps.map Prod.fst).Nodup) :
    IndexMap.ofPairs ps = pstate ps (ps.map Prod.fst) := by
  have := foldl_setSt_canon ps [] (by simpa using h)
  simpa [IndexMap.ofPairs, pstate, ptable] using this


theorem posOf_lt_of_mem_take {l : List Nat} {k : Nat} :
    ∀ {j : Nat}, k ∈ l.take j → posOf l k < j := by
  induction l with
  | nil => intro j h; simp at h
  | cons x rest ih =>
      intro j h
      cases j with
      | zero => simp at h
      | succ j =>
          by_cases hx : x = k
          · simp [posOf, hx]
          · rw [List.take_succ_cons, List.mem_cons] at h
            rcases h with h | h
            · exact absurd h.symm hx
            · simp only [posOf, if_neg hx]
              exact Nat.succ_lt_succ (ih h)

theorem posOf_ge_of_mem_drop {l : List Nat} (hnd : l.Nodup) {k : Nat} :
    ∀ {j : Nat}, k ∈ l.drop j → j ≤ posOf l k := by
  induction l with
  | nil => intro j h; simp at h
  | cons x rest ih =>
      intro j h
      cases j with
      | zero => omega
      | succ j =>
          rw [List.drop_succ_cons] at h
          have hx : x ≠ k := by
            intro he
            subst he
            exact (List.nodup_cons.1 hnd).1 (List.mem_of_mem_drop h)
          simp only [posOf, if_neg hx]
          exact Nat.succ_le_succ (ih (List.nodup_cons.1 hnd).2 h)

theorem mem_eraseIdx_last {ind : List Nat} (hnd : ind.Nodup) {klast : Nat}
    (hlast : ind[ind.length - 1]? = some klast) (hpos : 0 < ind.length) (k : Nat) :
    k ∈ ind.eraseIdx (ind.length - 1) ↔ (k ∈ ind ∧ k ≠ klast) := by
  have hne : ind ≠ [] := by
    intro he
    rw [he] at hpos
    simp at hpos
  have hdec : ind = ind.take (ind.length - 1) ++ [klast] := by
    conv_lhs => rw [← List.take_append_drop (ind.length - 1) ind]
    have hdrop : ind.drop (ind.length - 1) = [klast] := by
      rw [List.drop_eq_getElem_cons (by omega)]
      rw [List.drop_eq_nil_of_le (by omega)]
      have := List.getElem?_eq_getElem (l := ind) (n := ind.length - 1) (by omega)
      rw [hlast] at this
      rw [Option.some.inj this.symm]
    rw [hdrop]
  rw [eraseIdx_last_eq_take ind hne]
  constructor
  · intro hk
    refine ⟨List.mem_of_mem_take hk, ?_⟩
    intro he
    subst he
    have hnd2 := hnd
    rw [hdec, List.nodup_append] at hnd2
    exact hnd2.2.2 hk (by simp)
  · rintro ⟨hk, hne2⟩
    rw [hdec, List.mem_append] at hk
    rcases hk with hk | hk
    · exact hk
    · simp at hk
      exact absurd hk hne2

theorem eraseIdx_map_fst (ps : List (Nat × Nat)) :
    ∀ (j : Nat), (ps.eraseIdx j).map Prod.fst = (ps.map Prod.fst).eraseIdx j := by
  induction ps with
  | nil => intro j; rfl
  | cons p rest ih =>
      intro j
      cases j with
      | zero => rfl
      | succ j =>
          show (p.1 :: (rest.eraseIdx j).map Prod.fst) = p.1 :: (rest.map Prod.fst).eraseIdx j
          rw [ih]

theorem assocFind_getElem {ps : List (Nat × Nat)} (hnd : (ps.map Prod.fst).Nodup)
    {j : Nat} {k v : Nat} (hj : ps[j]? = some (k, v)) : assocFind ps k = some v := by
  induction ps generalizing j with
  | nil => simp at hj
  | cons p rest ih =>
      cases j with
      | zero =>
          simp only [List.getElem?_cons_zero, Option.some.injEq] at hj
          subst hj
          simp [assocFind]
      | succ j =>
          simp only [List.getElem?_cons_succ] at hj
          have hkmem : k ∈ rest.map Prod.fst := by
            refine List.mem_map.2 ⟨(k, v), ?_, rfl⟩
            exact List.mem_iff_getElem?.2 ⟨j, hj⟩
          have hp : p.1 ≠ k := by
            intro he
            rw [List.map_cons, List.nodup_cons] at hnd
            exact hnd.1 (he ▸ hkmem)
          simp only [assocFind, if_neg hp]
          exact ih (by rw [List.map_cons, List.nodup_cons] at hnd; exact hnd.2) hj

theorem assocErase_eq_eraseIdx {ps : List (Nat × Nat)} (hnd : (ps.map Prod.fst).Nodup)
    {j : Nat} {k v : Nat} (hj : ps[j]? = some (k, v)) : assocErase ps k = ps.eraseIdx j := by
  induction ps generalizing j with
  | nil => simp at hj
  | cons p rest ih =>
      cases j with
      | zero =>
          simp only [List.getElem?_cons_zero, Option.some.injEq] at hj
          subst hj
          simp [assocErase]
      | succ j =>
          simp only [List.getElem?_cons_succ] at hj
          have hkmem : k ∈ rest.map Prod.fst := by
            refine List.mem_map.2 ⟨(k, v), ?_, rfl⟩
            exact List.mem_iff_getElem?.2 ⟨j, hj⟩
          have hp : p.1 ≠ k := by
            intro he
            rw [List.map_cons, List.nodup_cons] at hnd
            exact hnd.1 (he ▸ hkmem)
          show (if p.1 = k then rest else p :: assocErase rest k) = p :: rest.eraseIdx j
          rw [if_neg hp,
            ih (by rw [List.map_cons, List.nodup_cons] at hnd; exact hnd.2) hj]

theorem WFp_pop {ts : List (Nat × Nat)} {ind : List Nat} (h : WFp ts ind)
    (hpos : 0 < ts.length) {klast : Nat} (hlast : ind[ts.length - 1]? = some klast) :
    WFp (assocErase ts klast) (ind.eraseIdx (ts.length - 1)) := by
  obtain ⟨hndI, hndT, hlen, hiff⟩ := h
  have hklmem : klast ∈ ind := List.mem_iff_getElem?.2 ⟨ts.length - 1, hlast⟩
  have hlast2 : ind[ind.length - 1]? = some klast := by
    rw [hlen]
    exact hlast
  refine ⟨List.Nodup.sublist (List.eraseIdx_sublist ind (ts.length - 1)) hndI, ?_, ?_, ?_⟩
  · rw [map_fst_assocErase]
    exact List.Nodup.erase klast hndT
  · rw [List.length_eraseIdx, if_pos (by omega),
      length_assocErase_of_mem ((hiff klast).1 hklmem)]
    omega
  · intro k
    have h1 : k ∈ ind.eraseIdx (ts.length - 1) ↔ (k ∈ ind ∧ k ≠ klast) := by
      rw [show ts.length - 1 = ind.length - 1 from by omega]
      exact mem_eraseIdx_last hndI hlast2 (by omega) k
    rw [h1, map_fst_assocErase, List.Nodup.mem_erase_iff hndT, hiff]
    tauto

theorem shiftTableGo_append (idx : Int) (xs ys : List (Nat × Bucket)) :
    ∀ (p : Int), IndexMap.shiftTableGo p idx (xs ++ ys)
      = IndexMap.shiftTableGo p idx xs
        ++ IndexMap.shiftTableGo (p + (xs.length : Int)) idx ys := by
  induction xs with
  | nil =>
      intro p
      simp [IndexMap.shiftTableGo]
  | cons q rest ih =>
      intro p
      rcases q with ⟨k, b⟩
      show (k, if p < idx then b else ⟨b.idx - 1, b.val⟩)
          :: IndexMap.shiftTableGo (p + 1) idx (rest ++ ys) = _
      rw [ih (p + 1)]
      have harith : p + 1 + (rest.length : Int) = p + ((((k, b) :: rest).length : Nat) : Int) := by
        simp
        omega
      rw [harith]
      rfl

theorem shiftTableGo_keep (idx : Int) (xs : List (Nat × Bucket)) :
    ∀ (p : Int), p + (xs.length : Int) ≤ idx → IndexMap.shiftTableGo p idx xs = xs := by
  induction xs with
  | nil => intro p _; rfl
  | cons q rest ih =>
      intro p hp
      rcases q with ⟨k, b⟩
      show (k, if p < idx then b else ⟨b.idx - 1, b.val⟩)
          :: IndexMap.shiftTableGo (p + 1) idx rest = (k, b) :: rest
      rw [if_pos (by simp at hp; omega), ih (p + 1) (by simp at hp ⊢; omega)]

theorem shiftTableGo_dec (idx : Int) (xs : List (Nat × Bucket)) :
    ∀ (p : Int), idx ≤ p →
      IndexMap.shiftTableGo p idx xs
        = xs.map (fun q => (q.1, ⟨q.2.idx - 1, q.2.val⟩)) := by
  induction xs with
  | nil => intro p _; rfl
  | cons q rest ih =>
      intro p hp
      rcases q with ⟨k, b⟩
      show (k, if p < idx then b else ⟨b.idx - 1, b.val⟩)
          :: IndexMap.shiftTableGo (p + 1) idx rest = _
      rw [if_neg (by omega), ih (p + 1) (by omega)]
      rfl

theorem ptable_dec (ts : List (Nat × Nat)) (f : Nat → Int) :
    (ptable ts f).map (fun q => (q.1, ⟨q.2.idx - 1, q.2.val⟩))
      = ptable ts (fun k => f k - 1) := by
  induction ts with
  | nil => rfl
  | cons p rest ih =>
      rw [ptable_cons, ptable_cons, List.map_cons, ih]

theorem indexOf_pstate {ts : List (Nat × Nat)} {ind : List Nat} {k : Nat}
    (hk : k ∈ ts.map Prod.fst) :
    (pstate ts ind).indexOf k = ((posOf ind k : Nat) : Int) := by
  obtain ⟨v, hv⟩ := assocFind_of_mem hk
  rw [IndexMap.indexOf, pstate_table, mapFind_ptable, hv]
  rfl

theorem valuesList_pstate (ts : List (Nat × Nat)) (ind : List Nat) :
    IndexMap.valuesList (pstate ts ind) = ind.map (fun k => assocFind ts k) := by
  rw [IndexMap.valuesList]
  refine List.map_congr_left fun k _ => ?_
  rw [pstate_table, mapFind_ptable]
  rcases assocFind ts k with _ | v
  · rfl
  · rfl

theorem entriesList_pstate (ts : List (Nat × Nat)) (ind : List Nat) :
    IndexMap.entriesList (pstate ts ind) = ind.map (fun k => (k, assocFind ts k)) := by
  rw [IndexMap.entriesList]
  refine List.map_congr_left fun k _ => ?_
  rw [pstate_table, mapFind_ptable]
  rcases assocFind ts k with _ | v
  · rfl
  · rfl


theorem deleteVal_canon {ps : List (Nat × Nat)} (hnd : (ps.map Prod.fst).Nodup)
    {j : Nat} {k v : Nat} (hj : ps[j]? = some (k, v)) :
    (pstate ps (ps.map Prod.fst)).deleteVal k
      = (pstate (ps.eraseIdx j) ((ps.map Prod.fst).eraseIdx j), some v) := by
  have hjlt : j < ps.length := (List.getElem?_eq_some.1 hj).1
  have hkj : (ps.map Prod.fst)[j]? = some k := by
    rw [List.getElem?_map, hj]
    rfl
  have hpos : posOf (ps.map Prod.fst) k = j := posOf_eq_of_getElem? hnd hkj
  have hfind : mapFind (pstate ps (ps.map Prod.fst)).table k
      = some ⟨((j : Nat) : Int), v⟩ := by
    rw [pstate_table, mapFind_ptable, assocFind_getElem hnd hj, hpos]
    rfl
  have hkslen : (ps.map Prod.fst).length = ps.length := by simp
  have hsplice : jsSpliceStart (ps.map Prod.fst).length ((j : Nat) : Int) = j := by
    rw [jsSpliceStart, if_neg (by omega), hkslen]
    omega
  have hdel : mapDelete (pstate ps (ps.map Prod.fst)).table k
      = ptable (ps.eraseIdx j) (fun k2 => ((posOf (ps.map Prod.fst) k2 : Nat) : Int)) := by
    rw [pstate_table, mapDelete_ptable, assocErase_eq_eraseIdx hnd hj]
  have hind : jsSpliceRemove1 (pstate ps (ps.map Prod.fst)).indices ((j : Nat) : Int)
      = (ps.map Prod.fst).eraseIdx j := by
    rw [pstate_indices, jsSpliceRemove1, hsplice]
  simp only [IndexMap.deleteVal, hfind, IndexMap.shiftRemoveFullUnchecked, hdel, hind]
  refine Prod.ext ?_ rfl
  show IndexMap.removeAndShiftIndices
      ⟨ptable (ps.eraseIdx j) (fun k2 => ((posOf (ps.map Prod.fst) k2 : Nat) : Int)),
        (ps.map Prod.fst).eraseIdx j⟩ ((j : Nat) : Int)
    = pstate (ps.eraseIdx j) ((ps.map Prod.fst).eraseIdx j)
  have hlen2 : (ptable (ps.eraseIdx j)
      (fun k2 => ((posOf (ps.map Prod.fst) k2 : Nat) : Int))).length = ps.length - 1 := by
    rw [length_ptable, List.length_eraseIdx, if_pos hjlt]
  rw [IndexMap.removeAndShiftIndices]
  by_cases hlast : j = ps.length - 1
  · rw [if_pos (by rw [hlen2]; omega)]
    have hklast : (ps.map Prod.fst)[(ps.map Prod.fst).length - 1]? = some k := by
      rw [hkslen, ← hlast]
      exact hkj
    have htcongr : ptable (ps.eraseIdx j)
        (fun k2 => ((posOf (ps.map Prod.fst) k2 : Nat) : Int))
        = ptable (ps.eraseIdx j)
          (fun k2 => ((posOf ((ps.map Prod.fst).eraseIdx j) k2 : Nat) : Int)) := by
      refine ptable_congr fun k2 hk2 => ?_
      rw [eraseIdx_map_fst] at hk2
      have hk2e : k2 ∈ (ps.map Prod.fst) ∧ k2 ≠ k := by
        refine (mem_eraseIdx_last hnd hklast ?_ k2).1 ?_
        · omega
        · rw [show (ps.map Prod.fst).length - 1 = j from by omega]
          exact hk2
      have hper := posOf_eraseIdx hnd hkj hk2e.1 hk2e.2
      have hlt : posOf (ps.map Prod.fst) k2 < j := by
        have hne2 : (ps.map Prod.fst) ≠ [] := by
          intro he
          rw [he] at hkslen
          simp at hkslen
          omega
        have htake := eraseIdx_last_eq_take (ps.map Prod.fst) hne2
        rw [show (ps.map Prod.fst).length - 1 = j from by omega] at htake
        rw [htake] at hk2
        have := posOf_lt_of_mem_take hk2
        omega
      rw [hper, if_pos hlt]
    rw [htcongr]
    rfl
  · rw [if_neg (by rw [hlen2]; intro he; exact hlast (by omega))]
    have hdecomp : ps.eraseIdx j = ps.take j ++ ps.drop (j + 1) :=
      List.eraseIdx_eq_take_drop_succ ps j
    have hdecompK : (ps.map Prod.fst).eraseIdx j
        = (ps.map Prod.fst).take j ++ (ps.map Prod.fst).drop (j + 1) :=
      List.eraseIdx_eq_take_drop_succ (ps.map Prod.fst) j
    have hlentake : (ps.take j).length = j := by
      rw [List.length_take]
      omega
    refine IndexMap.mk.injEq _ _ _ _ ▸ ⟨?_, rfl⟩
    show IndexMap.shiftTableGo 0 ((j : Nat) : Int)
        (ptable (ps.eraseIdx j) (fun k2 => ((posOf (ps.map Prod.fst) k2 : Nat) : Int)))
      = ptable (ps.eraseIdx j)
          (fun k2 => ((posOf ((ps.map Prod.fst).eraseIdx j) k2 : Nat) : Int))
    rw [hdecomp, ptable_append, shiftTableGo_append, ptable_append]
    have hkeep := shiftTableGo_keep ((j : Nat) : Int)
      (ptable (ps.take j) (fun k2 => ((posOf (ps.map Prod.fst) k2 : Nat) : Int))) 0
      (by rw [length_ptable, hlentake]; omega)
    rw [hkeep]
    have hdec := shiftTableGo_dec ((j : Nat) : Int)
      (ptable (ps.drop (j + 1)) (fun k2 => ((posOf (ps.map Prod.fst) k2 : Nat) : Int)))
      (0 + ((ptable (ps.take j)
        (fun k2 => ((posOf (ps.map Prod.fst) k2 : Nat) : Int))).length : Int))
      (by rw [length_ptable, hlentake]; omega)
    rw [hdec, ptable_dec]
    have hcong1 : ptable (ps.take j)
        (fun k2 => ((posOf (ps.map Prod.fst) k2 : Nat) : Int))
        = ptable (ps.take j)
          (fun k2 => ((posOf ((ps.map Prod.fst).eraseIdx j) k2 : Nat) : Int)) := by
      refine ptable_congr fun k2 hk2 => ?_
      rw [List.map_take] at hk2
      have hlt : posOf (ps.map Prod.fst) k2 < j := posOf_lt_of_mem_take hk2
      have hmem : k2 ∈ ps.map Prod.fst := List.mem_of_mem_take hk2
      have hne2 : k2 ≠ k := by
        intro he
        rw [he, hpos] at hlt
        omega
      rw [posOf_eraseIdx hnd hkj hmem hne2, if_pos hlt]
    have hcong2 : ptable (ps.drop (j + 1))
        (fun k2 => ((posOf (ps.map Prod.fst) k2 : Nat) : Int) - 1)
        = ptable (ps.drop (j + 1))
          (fun k2 => ((posOf ((ps.map Prod.fst).eraseIdx j) k2 : Nat) : Int)) := by
      refine ptable_congr fun k2 hk2 => ?_
      rw [List.map_drop] at hk2
      have hge : j + 1 ≤ posOf (ps.map Prod.fst) k2 := posOf_ge_of_mem_drop hnd hk2
      have hmem : k2 ∈ ps.map Prod.fst := List.mem_of_mem_drop hk2
      have hne2 : k2 ≠ k := by
        intro he
        rw [he, hpos] at hge
        omega
      rw [posOf_eraseIdx hnd hkj hmem hne2, if_neg (by omega)]
      push_cast
      omega
    rw [hcong1, hcong2]


theorem mem_keys_eraseIdx {ps : List (Nat × Nat)} {j i2 : Nat} {k2 : Nat}
    (hjlt : j < ps.length) (hi2 : (ps.map Prod.fst)[i2]? = some k2) (hne : i2 ≠ j) :
    k2 ∈ (ps.map Prod.fst).eraseIdx j := by
  rw [List.eraseIdx_eq_take_drop_succ]
  rcases Nat.lt_or_ge i2 j with hlt | hge
  · refine List.mem_append.2 (Or.inl ?_)
    refine List.mem_iff_getElem?.2 ⟨i2, ?_⟩
    rw [List.getElem?_take, if_pos hlt]
    exact hi2
  · refine List.mem_append.2 (Or.inr ?_)
    refine List.mem_iff_getElem?.2 ⟨i2 - (j + 1), ?_⟩
    rw [List.getElem?_drop, show j + 1 + (i2 - (j + 1)) = i2 from by omega]
    exact hi2

theorem assocFind_of_getElem_pair {ps : List (Nat × Nat)}
    (hnd : (ps.map Prod.fst).Nodup) {p : Nat × Nat} (hp : p ∈ ps) :
    assocFind ps p.1 = some p.2 := by
  obtain ⟨i3, hi3⟩ := List.mem_iff_getElem?.1 hp
  exact assocFind_getElem hnd (by rw [hi3])

/-- C6: shift-based removal of the key stored at position `j` of a map built by
inserting pairwise-distinct keys returns that key's value, leaves exactly the
other entries in their original relative order, and keeps the stored index of
every earlier entry while decrementing by one the stored index of every entry
that followed the removed one. -/
theorem claim_C6_shift_remove_order (ps : List (Nat × Nat))
    (hnd : (ps.map Prod.fst).Nodup) (j k v : Nat) (hj : ps[j]? = some (k, v)) :
    ((IndexMap.ofPairs ps).deleteVal k).2 = some v
    ∧ IndexMap.entriesList ((IndexMap.ofPairs ps).deleteSt k)
        = (ps.eraseIdx j).map (fun p => (p.1, some p.2))
    ∧ ∀ i2 k2 v2, ps[i2]? = some (k2, v2) → i2 ≠ j →
        ((IndexMap.ofPairs ps).deleteSt k).indexOf k2
          = if i2 < j then ((i2 : Nat) : Int) else ((i2 : Nat) : Int) - 1 := by
  have hjlt : j < ps.length := (List.getElem?_eq_some.1 hj).1
  have hdel := deleteVal_canon hnd hj
  have hndE : ((ps.eraseIdx j).map Prod.fst).Nodup := by
    rw [eraseIdx_map_fst]
    exact List.Nodup.sublist (List.eraseIdx_sublist _ j) hnd
  have hkj : (ps.map Prod.fst)[j]? = some k := by
    rw [List.getElem?_map, hj]
    rfl
  refine ⟨?_, ?_, ?_⟩
  · rw [ofPairs_eq_pstate ps hnd, hdel]
  · rw [IndexMap.deleteSt, ofPairs_eq_pstate ps hnd, hdel]
    show IndexMap.entriesList (pstate (ps.eraseIdx j) ((ps.map Prod.fst).eraseIdx j)) = _
    rw [entriesList_pstate, ← eraseIdx_map_fst, List.map_map]
    refine List.map_congr_left fun p hp => ?_
    show (p.1, assocFind (ps.eraseIdx j) p.1) = (p.1, some p.2)
    rw [assocFind_of_getElem_pair hndE hp]
  · intro i2 k2 v2 hi2 hne
    rw [IndexMap.deleteSt, ofPairs_eq_pstate ps hnd, hdel]
    show (pstate (ps.eraseIdx j) ((ps.map Prod.fst).eraseIdx j)).indexOf k2 = _
    have hk2 : (ps.map Prod.fst)[i2]? = some k2 := by
      rw [List.getElem?_map, hi2]
      rfl
    have hmemE : k2 ∈ ((ps.eraseIdx j)).map Prod.fst := by
      rw [eraseIdx_map_fst]
      exact mem_keys_eraseIdx hjlt hk2 hne
    rw [indexOf_pstate hmemE]
    have hposk2 : posOf (ps.map Prod.fst) k2 = i2 := posOf_eq_of_getElem? hnd hk2
    have hmem0 : k2 ∈ ps.map Prod.fst :=
      List.mem_iff_getElem?.2 ⟨i2, hk2⟩
    have hnek : k2 ≠ k := by
      intro he
      subst he
      rw [posOf_eq_of_getElem? hnd hkj] at hposk2
      omega
    rw [posOf_eraseIdx hnd hkj hmem0 hnek, hposk2]
    by_cases hlt : i2 < j
    · rw [if_pos hlt, if_pos hlt]
    · rw [if_neg hlt, if_neg hlt]
      omega

/-- Witness for C6 at the five-entry example of the claim: removing the third
key `3` from `{1, 2, 3, 4, 5}` returns `30`, leaves `[1, 2, 4, 5]`, and gives
the fourth key index 2 and the fifth key index 3. -/
theorem claim_C6_shift_remove_order_witness :
    ((IndexMap.ofPairs [(1, 10), (2, 20), (3, 30), (4, 40), (5, 50)]).deleteVal 3).2 = some 30
    ∧ IndexMap.entriesList
        ((IndexMap.ofPairs [(1, 10), (2, 20), (3, 30), (4, 40), (5, 50)]).deleteSt 3)
        = [(1, some 10), (2, some 20), (4, some 40), (5, some 50)]
    ∧ ((IndexMap.ofPairs [(1, 10), (2, 20), (3, 30), (4, 40), (5, 50)]).deleteSt 3).indexOf 4 = 2
    ∧ ((IndexMap.ofPairs [(1, 10), (2, 20), (3, 30), (4, 40), (5, 50)]).deleteSt 3).indexOf 5
        = 3 := by
  have h := claim_C6_shift_remove_order [(1, 10), (2, 20), (3, 30), (4, 40), (5, 50)]
    (by decide) 2 3 30 (by decide)
  refine ⟨h.1, ?_, ?_, ?_⟩
  · rw [h.2.1]
    decide
  · have h4 := h.2.2 3 4 40 (by decide) (by decide)
    rw [h4]
    decide
  · have h5 := h.2.2 4 5 50 (by decide) (by decide)
    rw [h5]
    decide


theorem swapArr_eraseIdx_last {l : List Nat} {n j : Nat} (hn : l.length = n)
    (hj : j < n) {x : Nat} (hx : l[n - 1]? = some x) :
    (swapArr l j (n - 1)).eraseIdx (n - 1) = (l.set j x).eraseIdx (n - 1) := by
  subst hn
  obtain ⟨y, hy⟩ : ∃ y, l[j]? = some y := by
    rcases h : l[j]? with _ | y
    · rw [List.getElem?_eq_none_iff] at h
      omega
    · exact ⟨y, rfl⟩
  have hswap : swapArr l j (l.length - 1) = (l.set (l.length - 1) y).set j x := by
    unfold swapArr
    rw [hy, hx]
  refine List.ext_getElem? fun i => ?_
  rw [List.getElem?_eraseIdx, List.getElem?_eraseIdx, hswap]
  by_cases hi : i < l.length - 1
  · rw [if_pos hi, if_pos hi]
    by_cases hij : i = j
    · subst hij
      rw [List.getElem?_set_self (by simpa using hj),
        List.getElem?_set_self (by omega)]
    · rw [List.getElem?_set_ne (fun he => hij he.symm),
        List.getElem?_set_ne (show l.length - 1 ≠ i from by omega),
        List.getElem?_set_ne (fun he => hij he.symm)]
  · rw [if_neg hi, if_neg hi,
      List.getElem?_eq_none (by simp; omega),
      List.getElem?_eq_none (by simp; omega)]

theorem key_not_mem_set_eraseIdx_last {ps : List (Nat × Nat)}
    (hnd : (ps.map Prod.fst).Nodup) {j k v klast : Nat} (hj : ps[j]? = some (k, v))
    (hklastj : (ps.map Prod.fst)[ps.length - 1]? = some klast) :
    k ∉ ((ps.map Prod.fst).set j klast).eraseIdx (ps.length - 1) := by
  have hjlt : j < ps.length := (List.getElem?_eq_some.1 hj).1
  have hkj : (ps.map Prod.fst)[j]? = some k := by
    rw [List.getElem?_map, hj]
    rfl
  have hposk : posOf (ps.map Prod.fst) k = j := posOf_eq_of_getElem? hnd hkj
  have hposkl : posOf (ps.map Prod.fst) klast = ps.length - 1 :=
    posOf_eq_of_getElem? hnd hklastj
  intro hmem
  obtain ⟨i, hi⟩ := List.mem_iff_getElem?.1 hmem
  rw [List.getElem?_eraseIdx] at hi
  by_cases hilt : i < ps.length - 1
  · rw [if_pos hilt] at hi
    by_cases hij : i = j
    · subst hij
      rw [List.getElem?_set_self (by simpa using hjlt)] at hi
      have hkl : klast = k := Option.some.inj hi
      rw [hkl, hposk] at hposkl
      omega
    · rw [List.getElem?_set_ne (fun he => hij he.symm)] at hi
      have := posOf_eq_of_getElem? hnd hi
      omega
  · rw [if_neg hilt, List.getElem?_eq_none (by simp; omega)] at hi
    exact Option.noConfusion hi

/-- C7: swap-based removal of the key stored at position `j` of a map built by
inserting pairwise-distinct keys returns that key's value, shrinks the map by
one, moves the previously-last entry into position `j` (its stored index
becomes `j`), keeps every other surviving entry at its prior position and
stored index, and drops the last slot. -/
theorem claim_C7_swap_remove (ps : List (Nat × Nat)) (hnd : (ps.map Prod.fst).Nodup)
    (j k v klast vlast : Nat) (hj : ps[j]? = some (k, v))
    (hlastp : ps[ps.length - 1]? = some (klast, vlast)) :
    ((IndexMap.ofPairs ps).swapRemoveVal k).2 = some v
    ∧ ((IndexMap.ofPairs ps).swapRemoveSt k).size = ps.length - 1
    ∧ IndexMap.entriesList ((IndexMap.ofPairs ps).swapRemoveSt k)
        = ((ps.set j (klast, vlast)).eraseIdx (ps.length - 1)).map
            (fun p => (p.1, some p.2))
    ∧ (j ≠ ps.length - 1 →
        ((IndexMap.ofPairs ps).swapRemoveSt k).indexOf klast = ((j : Nat) : Int))
    ∧ ∀ i2 k2 v2, ps[i2]? = some (k2, v2) → i2 ≠ j → i2 ≠ ps.length - 1 →
        ((IndexMap.ofPairs ps).swapRemoveSt k).indexOf k2 = ((i2 : Nat) : Int) := by
  have hjlt : j < ps.length := (List.getElem?_eq_some.1 hj).1
  have hn1 : 0 < ps.length := by omega
  have hkj : (ps.map Prod.fst)[j]? = some k := by
    rw [List.getElem?_map, hj]
    rfl
  have hklastj : (ps.map Prod.fst)[ps.length - 1]? = some klast := by
    rw [List.getElem?_map, hlastp]
    rfl
  have hposk : posOf (ps.map Prod.fst) k = j := posOf_eq_of_getElem? hnd hkj
  have hposkl : posOf (ps.map Prod.fst) klast = ps.length - 1 :=
    posOf_eq_of_getElem? hnd hklastj
  have hkmem : k ∈ ps.map Prod.fst := List.mem_iff_getElem?.2 ⟨j, hkj⟩
  have hfindk : mapFind (pstate ps (ps.map Prod.fst)).table k
      = some ⟨((j : Nat) : Int), v⟩ := by
    rw [pstate_table, mapFind_ptable, assocFind_getElem hnd hj, hposk]
    rfl
  have hfull : (pstate ps (ps.map Prod.fst)).getFull k
      = some (((j : Nat) : Int), k, v) := by
    simp only [IndexMap.getFull, hfindk]
  have hcast : ((pstate ps (ps.map Prod.fst)).table.length : Int) - 1
      = (((ps.length - 1 : Nat)) : Int) := by
    rw [pstate_table, length_ptable]
    omega
  have hswap := swapIndices_pstate (WFp_canon hnd) hjlt
    (show ps.length - 1 < ps.length from by omega)
  have hind1last : (swapArr (ps.map Prod.fst) j (ps.length - 1))[ps.length - 1]?
      = some k := by
    rw [getElem?_swapArr (by simpa using hjlt) (by simp; omega), swapPos_right]
    exact hkj
  have hvfind : assocFind ps k = some v := assocFind_getElem hnd hj
  have hpop := popVal_pstate (WFp_swapArr (WFp_canon hnd) hjlt (by omega))
    hn1 hind1last hvfind
  have hSt : (pstate ps (ps.map Prod.fst)).swapRemoveFullVal k
      = (pstate (assocErase ps k)
          ((swapArr (ps.map Prod.fst) j (ps.length - 1)).eraseIdx (ps.length - 1)),
        some (((j : Nat) : Int), k, some v)) := by
    simp only [IndexMap.swapRemoveFullVal, hfull]
    rw [hcast, hswap, hpop]
  have hind2 : (swapArr (ps.map Prod.fst) j (ps.length - 1)).eraseIdx (ps.length - 1)
      = ((ps.map Prod.fst).set j klast).eraseIdx (ps.length - 1) :=
    swapArr_eraseIdx_last (by simp) hjlt hklastj
  have hndI2 : (((ps.map Prod.fst).set j klast).eraseIdx (ps.length - 1)).Nodup := by
    rw [← hind2]
    exact List.Nodup.sublist (List.eraseIdx_sublist _ (ps.length - 1))
      (swapArr_nodup (by simpa using hjlt) (by simp; omega) hnd)
  refine ⟨?_, ?_, ?_, ?_, ?_⟩
  · rw [ofPairs_eq_pstate ps hnd]
    simp only [IndexMap.swapRemoveVal, hSt]
  · rw [IndexMap.swapRemoveSt, ofPairs_eq_pstate ps hnd, hSt]
    show (pstate (assocErase ps k) _).size = ps.length - 1
    rw [IndexMap.size, pstate_table, length_ptable, length_assocErase_of_mem hkmem]
  · rw [IndexMap.swapRemoveSt, ofPairs_eq_pstate ps hnd, hSt]
    show IndexMap.entriesList (pstate (assocErase ps k)
      ((swapArr (ps.map Prod.fst) j (ps.length - 1)).eraseIdx (ps.length - 1))) = _
    rw [entriesList_pstate, hind2]
    have hkeys : ((ps.set j (klast, vlast)).eraseIdx (ps.length - 1)).map Prod.fst
        = ((ps.map Prod.fst).set j klast).eraseIdx (ps.length - 1) := by
      rw [eraseIdx_map_fst, List.map_set]
    rw [← hkeys, List.map_map]
    refine List.map_congr_left fun p hp => ?_
    show (p.1, assocFind (assocErase ps k) p.1) = (p.1, some p.2)
    have hpmem : p ∈ ps := by
      have h1 : p ∈ ps.set j (klast, vlast) :=
        List.Sublist.mem hp (List.eraseIdx_sublist _ (ps.length - 1))
      rcases List.mem_or_eq_of_mem_set h1 with h2 | h2
      · exact h2
      · rw [h2]
        exact List.mem_iff_getElem?.2 ⟨ps.length - 1, hlastp⟩
    have hpne : p.1 ≠ k := by
      intro he
      have hmemk : p.1 ∈ ((ps.map Prod.fst).set j klast).eraseIdx (ps.length - 1) := by
        rw [← hkeys]
        exact List.mem_map.2 ⟨p, hp, rfl⟩
      rw [he] at hmemk
      exact key_not_mem_set_eraseIdx_last hnd hj hklastj hmemk
    rw [assocFind_assocErase_ne hpne, assocFind_of_getElem_pair hnd hpmem]
  · intro hjne
    rw [IndexMap.swapRemoveSt, ofPairs_eq_pstate ps hnd, hSt]
    show (pstate (assocErase ps k)
      ((swapArr (ps.map Prod.fst) j (ps.length - 1)).eraseIdx (ps.length - 1))).indexOf
        klast = _
    have hklne : klast ≠ k := by
      intro he
      rw [he, hposk] at hposkl
      omega
    have hklmemE : klast ∈ (assocErase ps k).map Prod.fst := by
      rw [map_fst_assocErase]
      exact (List.Nodup.mem_erase_iff hnd).2
        ⟨hklne, List.mem_iff_getElem?.2 ⟨ps.length - 1, hklastj⟩⟩
    rw [indexOf_pstate hklmemE, hind2]
    have hat : (((ps.map Prod.fst).set j klast).eraseIdx (ps.length - 1))[j]?
        = some klast := by
      rw [List.getElem?_eraseIdx, if_pos (by omega),
        List.getElem?_set_self (by simpa using hjlt)]
    rw [posOf_eq_of_getElem? hndI2 hat]
  · intro i2 k2 v2 hi2 hne2j hne2l
    have hi2lt : i2 < ps.length := (List.getElem?_eq_some.1 hi2).1
    have hk2 : (ps.map Prod.fst)[i2]? = some k2 := by
      rw [List.getElem?_map, hi2]
      rfl
    have hposk2 : posOf (ps.map Prod.fst) k2 = i2 := posOf_eq_of_getElem? hnd hk2
    have hk2ne : k2 ≠ k := by
      intro he
      rw [he, hposk] at hposk2
      omega
    rw [IndexMap.swapRemoveSt, ofPairs_eq_pstate ps hnd, hSt]
    show (pstate (assocErase ps k)
      ((swapArr (ps.map Prod.fst) j (ps.length - 1)).eraseIdx (ps.length - 1))).indexOf
        k2 = _
    have hk2memE : k2 ∈ (assocErase ps k).map Prod.fst := by
      rw [map_fst_assocErase]
      exact (List.Nodup.mem_erase_iff hnd).2
        ⟨hk2ne, List.mem_iff_getElem?.2 ⟨i2, hk2⟩⟩
    rw [indexOf_pstate hk2memE, hind2]
    have hat : (((ps.map Prod.fst).set j klast).eraseIdx (ps.length - 1))[i2]?
        = some k2 := by
      rw [List.getElem?_eraseIdx, if_pos (by omega),
        List.getElem?_set_ne (fun he => hne2j he.symm)]
      exact hk2
    rw [posOf_eq_of_getElem? hndI2 hat]

/-- Witness for C7 at the five-entry example of the claim: swap-removing the
first key `1` from `{1, 2, 3, 4, 5}` returns `10`, leaves four entries with the
previously-last key `5` at index 0, and keeps keys `2`, `3`, `4` at indices 1,
2, 3. -/
theorem claim_C7_swap_remove_witness :
    ((IndexMap.ofPairs [(1, 10), (2, 20), (3, 30), (4, 40), (5, 50)]).swapRemoveVal 1).2
        = some 10
    ∧ ((IndexMap.ofPairs [(1, 10), (2, 20), (3, 30), (4, 40), (5, 50)]).swapRemoveSt 1).size
        = 4
    ∧ IndexMap.entriesList
        ((IndexMap.ofPairs [(1, 10), (2, 20), (3, 30), (4, 40), (5, 50)]).swapRemoveSt 1)
        = [(5, some 50), (2, some 20), (3, some 30), (4, some 40)]
    ∧ ((IndexMap.ofPairs [(1, 10), (2, 20), (3, 30), (4, 40), (5, 50)]).swapRemoveSt
        1).indexOf 5 = 0
    ∧ ((IndexMap.ofPairs [(1, 10), (2, 20), (3, 30), (4, 40), (5, 50)]).swapRemoveSt
        1).indexOf 3 = 2 := by
  have h := claim_C7_swap_remove [(1, 10), (2, 20), (3, 30), (4, 40), (5, 50)]
    (by decide) 0 1 10 5 50 (by decide) (by decide)
  refine ⟨h.1, h.2.1, ?_, ?_, ?_⟩
  · rw [h.2.2.1]
    decide
  · exact h.2.2.2.1 (by decide)
  · exact h.2.2.2.2 2 3 30 (by decide) (by decide) (by decide)


theorem shiftUpGo_pstate {ts : List (Nat × Nat)} :
    ∀ (t : Nat) (ind : List Nat) (a : Nat), WFp ts ind → a + t < ts.length →
      IndexMap.shiftUpGo (pstate ts ind) ((a : Nat) : Int) t
        = pstate ts (chainUpArr ind a t) := by
  intro t
  induction t with
  | zero =>
      intro ind a _ _
      rfl
  | succ n ih =>
      intro ind a h hlt
      show IndexMap.shiftUpGo ((pstate ts ind).swapIndices (((a : Nat) : Int))
          (((a : Nat) : Int) + 1)) (((a : Nat) : Int) + 1) n
        = pstate ts (chainUpArr (swapArr ind a (a + 1)) (a + 1) n)
      rw [show ((a : Nat) : Int) + 1 = (((a + 1 : Nat)) : Int) from by push_cast; ring]
      rw [swapIndices_pstate h (by omega) (by omega)]
      exact ih (swapArr ind a (a + 1)) (a + 1)
        (WFp_swapArr h (by omega) (by omega)) (by omega)

theorem shiftDownGo_pstate {ts : List (Nat × Nat)} :
    ∀ (t : Nat) (ind : List Nat) (j : Nat), WFp ts ind → t ≤ j + 1 →
      j + 1 < ts.length →
      IndexMap.shiftDownGo (pstate ts ind) ((j : Nat) : Int) t
        = pstate ts (chainDownArr ind j t) := by
  intro t
  induction t with
  | zero =>
      intro ind j _ _ _
      rfl
  | succ n ih =>
      intro ind j h ht hlt
      show IndexMap.shiftDownGo ((pstate ts ind).swapIndices (((j : Nat) : Int) + 1)
          (((j : Nat) : Int))) (((j : Nat) : Int) - 1) n
        = pstate ts (chainDownArr (swapArr ind (j + 1) j) (j - 1) n)
      rw [show ((j : Nat) : Int) + 1 = (((j + 1 : Nat)) : Int) from by push_cast; ring]
      rw [swapIndices_pstate h (by omega) (by omega)]
      cases n with
      | zero => rfl
      | succ n2 =>
          rw [show ((j : Nat) : Int) - 1 = (((j - 1 : Nat)) : Int) from by omega]
          exact ih (swapArr ind (j + 1) j) (j - 1)
            (WFp_swapArr h (by omega) (by omega)) (by omega) (by omega)

theorem moveIndex_pstate {ts : List (Nat × Nat)} {ind : List Nat} (h : WFp ts ind)
    {a b : Nat} (ha : a < ts.length) (hb : b < ts.length) :
    (pstate ts ind).moveIndex ((a : Nat) : Int) ((b : Nat) : Int)
      = pstate ts (listMove ind a b) := by
  have hlen : ind.length = ts.length := h.2.2.1
  simp only [IndexMap.moveIndex]
  rw [if_neg (by split_ifs <;> omega)]
  by_cases hab : ((a : Nat) : Int) < ((b : Nat) : Int)
  · rw [if_pos hab]
    have hab2 : a < b := by exact_mod_cast hab
    rw [IndexMap.shiftUp, Int.toNat_sub]
    rw [shiftUpGo_pstate (b - a) ind a h (by omega)]
    rw [chainUp_eq_listMove (b - a) ind a (by omega)]
    rw [show a + (b - a) = b from by omega]
  · rw [if_neg hab]
    by_cases heq : a = b
    · subst heq
      rw [IndexMap.shiftDown, Int.toNat_sub, Nat.sub_self]
      rw [listMove_self (show a < ind.length from by omega)]
      rfl
    · have hba : b < a := by omega
      rw [IndexMap.shiftDown, Int.toNat_sub]
      rw [show ((a : Nat) : Int) - 1 = (((a - 1 : Nat)) : Int) from by omega]
      rw [shiftDownGo_pstate (a - b) ind (a - 1) h (by omega) (by omega)]
      rw [chainDown_eq_listMove (a - b) ind (a - 1) (by omega) (by omega)]
      rw [show a - 1 + 1 = a from by omega, show a - (a - b) = b from by omega]

/-- C9: for in-range positions `a` and `b` of a map built by inserting
pairwise-distinct keys, `moveIndex(a, b)` reorders the entries exactly as
removing the key at position `a` and reinserting it at position `b` (every
entry strictly between shifts one slot toward the vacated position, all other
relative order unchanged), for both the value sequence and the entry
sequence. -/
theorem claim_C9_moveIndex (ps : List (Nat × Nat)) (hnd : (ps.map Prod.fst).Nodup)
    (a b : Nat) (ha : a < ps.length) (hb : b < ps.length) :
    IndexMap.valuesList
        ((IndexMap.ofPairs ps).moveIndex ((a : Nat) : Int) ((b : Nat) : Int))
        = (listMove (ps.map Prod.fst) a b).map (fun k => assocFind ps k)
    ∧ IndexMap.entriesList
        ((IndexMap.ofPairs ps).moveIndex ((a : Nat) : Int) ((b : Nat) : Int))
        = (listMove (ps.map Prod.fst) a b).map (fun k => (k, assocFind ps k)) := by
  rw [ofPairs_eq_pstate ps hnd, moveIndex_pstate (WFp_canon hnd) ha hb]
  exact ⟨valuesList_pstate _ _, entriesList_pstate _ _⟩

/-- Witness for C9 at the four-entry example of the claim: `moveIndex(0, 3)`
on `{k1, k2, k3, k4}` leaves the values in order `[v2, v3, v4, v1]`. -/
theorem claim_C9_moveIndex_witness :
    IndexMap.valuesList ((IndexMap.ofPairs
        [(1, 10), (2, 20), (3, 30), (4, 40)]).moveIndex ((0 : Nat) : Int) ((3 : Nat) : Int))
        = [some 20, some 30, some 40, some 10]
    ∧ IndexMap.entriesList ((IndexMap.ofPairs
        [(1, 10), (2, 20), (3, 30), (4, 40)]).moveIndex ((0 : Nat) : Int) ((3 : Nat) : Int))
        = [(2, some 20), (3, some 30), (4, some 40), (1, some 10)] := by
  have h := claim_C9_moveIndex [(1, 10), (2, 20), (3, 30), (4, 40)] (by decide) 0 3
    (by decide) (by decide)
  refine ⟨?_, ?_⟩
  · rw [h.1]
    decide
  · rw [h.2]
    decide


theorem truncate_canon (n : Nat) : ∀ (ps : List (Nat × Nat)), ps.length = n →
    (ps.map Prod.fst).Nodup → ∀ c : Nat,
    (pstate ps (ps.map Prod.fst)).truncate c
      = pstate (ps.take c) ((ps.map Prod.fst).take c) := by
  induction n using Nat.strong_induction_on with
  | _ n ih =>
      intro ps hlen hnd c
      rw [IndexMap.truncate]
      by_cases hc : (pstate ps (ps.map Prod.fst)).indices.length ≤ c
      · rw [dif_pos hc]
        rw [pstate_indices] at hc
        have h1 : ps.take c = ps := List.take_of_length_le (by simpa using hc)
        have h2 : (ps.map Prod.fst).take c = ps.map Prod.fst :=
          List.take_of_length_le hc
        rw [h1, h2]
      · rw [dif_neg hc]
        rw [pstate_indices] at hc
        have hclt : c < ps.length := by simpa using Nat.lt_of_not_le hc
        have hpos : 0 < ps.length := by omega
        obtain ⟨pl, hps⟩ : ∃ pl, ps[ps.length - 1]? = some pl := by
          rcases hp : ps[ps.length - 1]? with _ | p
          · rw [List.getElem?_eq_none_iff] at hp
            omega
          · exact ⟨p, rfl⟩
        obtain ⟨kl, vl⟩ := pl
        have hkl : (ps.map Prod.fst)[ps.length - 1]? = some kl := by
          rw [List.getElem?_map, hps]
          rfl
        have hpop := popVal_pstate (WFp_canon hnd) hpos hkl
          (assocFind_getElem hnd hps)
        have hSt : (pstate ps (ps.map Prod.fst)).popSt
            = pstate (ps.eraseIdx (ps.length - 1))
                ((ps.eraseIdx (ps.length - 1)).map Prod.fst) := by
          rw [IndexMap.popSt, hpop, assocErase_eq_eraseIdx hnd hps, eraseIdx_map_fst]
        rw [hSt]
        have hndE : ((ps.eraseIdx (ps.length - 1)).map Prod.fst).Nodup := by
          rw [eraseIdx_map_fst]
          exact List.Nodup.sublist (List.eraseIdx_sublist _ (ps.length - 1)) hnd
        have hlenE : (ps.eraseIdx (ps.length - 1)).length = ps.length - 1 := by
          rw [List.length_eraseIdx, if_pos (by omega)]
        rw [dif_pos (by
          rw [pstate_indices, pstate_indices]
          simp only [List.length_map]
          omega)]
        rw [ih (ps.length - 1) (by omega) _ hlenE hndE c]
        have htk : ps.eraseIdx (ps.length - 1) = ps.take (ps.length - 1) := by
          rw [List.eraseIdx_eq_take_drop_succ,
            List.drop_eq_nil_of_le (by omega), List.append_nil]
        rw [htk, List.take_take, ← List.map_take, ← List.map_take,
          show min c (ps.length - 1) = c from by omega,
          List.take_take, show min c (ps.length - 1) = c from by omega]

theorem splitEntries_eq {t : List (Nat × Bucket)} :
    ∀ (rs : List (Nat × Nat)) (i : Nat), (rs.map Prod.fst).Nodup →
      (∀ p ∈ rs, (mapFind t p.1).map Bucket.val = some p.2) →
      IndexMap.splitEntries t (rs.map Prod.fst) i
        = Except.ok (ptable rs
            (fun k => ((i + posOf (rs.map Prod.fst) k : Nat) : Int))) := by
  intro rs
  induction rs with
  | nil =>
      intro i _ _
      rfl
  | cons p rest ih =>
      intro i hnd hv
      have hp : (mapFind t p.1).map Bucket.val = some p.2 := hv p (by simp)
      rcases hb : mapFind t p.1 with _ | b
      · rw [hb] at hp
        exact Option.noConfusion hp
      · rw [hb] at hp
        have hbv : b.val = p.2 := Option.some.inj hp
        show (match mapFind t p.1 with
          | none => Except.error JsErr.type
          | some b => (IndexMap.splitEntries t (rest.map Prod.fst) (i + 1)).map
              fun es => (p.1, (⟨((i : Nat) : Int), b.val⟩ : Bucket)) :: es) = _
        rw [hb, ih (i + 1) (by rw [List.map_cons, List.nodup_cons] at hnd; exact hnd.2)
          (fun q hq => hv q (by simp [hq]))]
        show Except.ok ((p.1, (⟨((i : Nat) : Int), b.val⟩ : Bucket))
            :: ptable rest (fun k => ((i + 1 + posOf (rest.map Prod.fst) k : Nat) : Int)))
          = _
        rw [ptable_cons]
        have hfst : posOf ((p :: rest).map Prod.fst) p.1 = 0 := by
          simp [posOf]
        have hcong : ptable rest
            (fun k => ((i + 1 + posOf (rest.map Prod.fst) k : Nat) : Int))
            = ptable rest
              (fun k => ((i + posOf ((p :: rest).map Prod.fst) k : Nat) : Int)) := by
          refine ptable_congr fun k2 hk2 => ?_
          have hne : p.1 ≠ k2 := by
            rw [List.map_cons, List.nodup_cons] at hnd
            intro he
            exact hnd.1 (he ▸ hk2)
          rw [show ((p :: rest).map Prod.fst) = p.1 :: rest.map Prod.fst from rfl]
          simp only [posOf, if_neg hne]
          congr 1
          omega
        rw [hcong, hbv, hfst, Nat.add_zero]


/-- C8: for a map of size `n` built by inserting pairwise-distinct keys and any
cut point `c ≤ n`, `splitOff(c)` succeeds, the receiver keeps the first `c`
entries, the split-off map holds the entries from position `c` on re-indexed
from 0, the sizes are `c` and `n - c`, and the two entry sequences concatenate
to the original entry sequence. -/
theorem claim_C8_splitOff (ps : List (Nat × Nat)) (hnd : (ps.map Prod.fst).Nodup)
    (c : Nat) (hc : c ≤ ps.length) :
    ∃ m1 m2, (IndexMap.ofPairs ps).splitOffE ((c : Nat) : Int) = Except.ok (m1, m2)
      ∧ m1.size = c
      ∧ m2.size = ps.length - c
      ∧ IndexMap.entriesList m1 = (ps.take c).map (fun p => (p.1, some p.2))
      ∧ IndexMap.entriesList m2 = (ps.drop c).map (fun p => (p.1, some p.2))
      ∧ IndexMap.entriesList m1 ++ IndexMap.entriesList m2
          = ps.map (fun p => (p.1, some p.2))
      ∧ ∀ i2 k2 v2, (ps.drop c)[i2]? = some (k2, v2) →
          m2.indexOf k2 = ((i2 : Nat) : Int) := by
  have hndD : ((ps.drop c).map Prod.fst).Nodup := by
    rw [List.map_drop]
    exact List.Nodup.sublist (List.drop_sublist c (ps.map Prod.fst)) hnd
  have hndT : ((ps.take c).map Prod.fst).Nodup := by
    rw [List.map_take]
    exact List.Nodup.sublist (List.take_sublist c (ps.map Prod.fst)) hnd
  have hsp : IndexMap.splitEntries (pstate ps (ps.map Prod.fst)).table
      ((ps.drop c).map Prod.fst) 0
      = Except.ok (ptable (ps.drop c)
          (fun k => ((posOf ((ps.drop c).map Prod.fst) k : Nat) : Int))) := by
    have h0 := splitEntries_eq (t := (pstate ps (ps.map Prod.fst)).table)
      (ps.drop c) 0 hndD (fun p hp => by
        rw [pstate_table, mapFind_ptable,
          assocFind_of_getElem_pair hnd (List.mem_of_mem_drop hp)]
        rfl)
    rw [h0]
    refine congrArg Except.ok (ptable_congr fun k2 _ => ?_)
    rw [Nat.zero_add]
  have he1 : IndexMap.entriesList (pstate (ps.take c) ((ps.map Prod.fst).take c))
      = (ps.take c).map (fun p => (p.1, some p.2)) := by
    rw [entriesList_pstate, ← List.map_take, List.map_map]
    refine List.map_congr_left fun p hp => ?_
    show (p.1, assocFind (ps.take c) p.1) = (p.1, some p.2)
    rw [assocFind_of_getElem_pair hndT hp]
  have he2 : IndexMap.entriesList (pstate (ps.drop c) ((ps.drop c).map Prod.fst))
      = (ps.drop c).map (fun p => (p.1, some p.2)) := by
    rw [entriesList_pstate, List.map_map]
    refine List.map_congr_left fun p hp => ?_
    show (p.1, assocFind (ps.drop c) p.1) = (p.1, some p.2)
    rw [assocFind_of_getElem_pair hndD hp]
  refine ⟨pstate (ps.take c) ((ps.map Prod.fst).take c),
    pstate (ps.drop c) ((ps.drop c).map Prod.fst), ?_, ?_, ?_, ?_, ?_, ?_, ?_⟩
  · rw [ofPairs_eq_pstate ps hnd, IndexMap.splitOffE]
    rw [if_neg (by
      rw [pstate_table, length_ptable]
      omega)]
    rw [show (((c : Nat) : Int)).toNat = c from by omega]
    rw [show (pstate ps (ps.map Prod.fst)).indices.drop c
        = (ps.drop c).map Prod.fst from by rw [pstate_indices, List.map_drop]]
    rw [hsp]
    show Except.ok ((pstate ps (ps.map Prod.fst)).truncate c, _) = _
    rw [truncate_canon ps.length ps rfl hnd c]
    rfl
  · rw [IndexMap.size, pstate_table, length_ptable, List.length_take]
    omega
  · rw [IndexMap.size, pstate_table, length_ptable, List.length_drop]
  · exact he1
  · exact he2
  · rw [he1, he2, ← List.map_append, List.take_append_drop]
  · intro i2 k2 v2 hi2
    have hk2 : ((ps.drop c).map Prod.fst)[i2]? = some k2 := by
      rw [List.getElem?_map, hi2]
      rfl
    have hmem : k2 ∈ (ps.drop c).map Prod.fst := List.mem_iff_getElem?.2 ⟨i2, hk2⟩
    rw [indexOf_pstate hmem, posOf_eq_of_getElem? hndD hk2]


/-- Witness for C8: splitting `{1 ↦ 10, 2 ↦ 20, 3 ↦ 30}` at 1 leaves `[1]` in
the receiver and `[2, 3]` re-indexed from 0 in the split-off map. -/
theorem claim_C8_splitOff_witness :
    ∃ m1 m2,
      (IndexMap.ofPairs [(1, 10), (2, 20), (3, 30)]).splitOffE ((1 : Nat) : Int)
          = Except.ok (m1, m2)
        ∧ m1.size = 1
        ∧ m2.size = 2
        ∧ IndexMap.entriesList m1 = [(1, some 10)]
        ∧ IndexMap.entriesList m2 = [(2, some 20), (3, some 30)]
        ∧ IndexMap.entriesList m1 ++ IndexMap.entriesList m2
            = [(1, some 10), (2, some 20), (3, some 30)]
        ∧ m2.indexOf 2 = 0
        ∧ m2.indexOf 3 = 1 := by
  obtain ⟨m1, m2, h1, h2, h3, h4, h5, h6, h7⟩ :=
    claim_C8_splitOff [(1, 10), (2, 20), (3, 30)] (by decide) 1 (by decide)
  refine ⟨m1, m2, h1, h2, h3, ?_, ?_, ?_, ?_, ?_⟩
  · rw [h4]
    decide
  · rw [h5]
    decide
  · rw [h6]
    decide
  · rw [h7 0 2 20 (by decide)]
    decide
  · rw [h7 1 3 30 (by decide)]
    decide


theorem diffRun_eq_filter :
    ∀ (l : List Nat) (fuel : Nat) (other : IndexMap), l.length ≤ fuel →
      IndexSet.diffRun fuel l other
        = l.filter (fun x => !(IndexSet.contains other x)) := by
  intro l
  induction l with
  | nil =>
      intro fuel other _
      cases fuel with
      | zero => rfl
      | succ f => rfl
  | cons x rest ih =>
      intro fuel other hlen
      cases fuel with
      | zero => simp at hlen
      | succ f =>
          by_cases hx : IndexSet.contains other x = true
          · have h1 : IndexSet.diffRun (f + 1) (x :: rest) other
                = IndexSet.diffRun (f + 1) rest other := by
              show (match IndexSet.diffNext (x :: rest) other with
                | (none, _) => []
                | (some y, r) => y :: IndexSet.diffRun f r other) = _
              rw [show IndexSet.diffNext (x :: rest) other
                  = IndexSet.diffNext rest other from by
                    rw [IndexSet.diffNext, if_pos hx]]
              rfl
            rw [h1, ih (f + 1) other (by simp at hlen ⊢; omega),
              List.filter_cons, if_neg (by simp [hx])]
          · have h1 : IndexSet.diffNext (x :: rest) other = (some x, rest) := by
              rw [IndexSet.diffNext, if_neg hx]
            show (match IndexSet.diffNext (x :: rest) other with
              | (none, _) => []
              | (some y, r) => y :: IndexSet.diffRun f r other) = _
            rw [h1]
            show x :: IndexSet.diffRun f rest other = _
            rw [ih f other (by simp at hlen; omega),
              List.filter_cons, if_pos (by simp [Bool.not_eq_true] at hx ⊢; exact hx)]

/-- C3: the `Difference` iterator of sets `A` and `B`, drawn to exhaustion,
yields exactly the elements of `A`'s iteration order that are not members of
`B`, in that order (it is `A`'s iteration filtered by non-membership in `B`);
when `A`'s order array is duplicate-free, each such element appears exactly
once. -/
theorem claim_C3_difference (a b : IndexMap) :
    IndexSet.differenceList a b
        = a.indices.filter (fun x => !(IndexSet.contains b x))
    ∧ (a.indices.Nodup → (IndexSet.differenceList a b).Nodup)
    ∧ ∀ x, x ∈ IndexSet.differenceList a b
        ↔ (x ∈ a.indices ∧ IndexSet.contains b x = false) := by
  have h := diffRun_eq_filter a.indices a.indices.length b (Nat.le_refl _)
  have hd : IndexSet.differenceList a b
      = a.indices.filter (fun x => !(IndexSet.contains b x)) := by
    rw [IndexSet.differenceList, h]
  refine ⟨hd, ?_, ?_⟩
  · intro hnd
    rw [hd]
    exact List.Nodup.filter _ hnd
  · intro x
    rw [hd, List.mem_filter]
    constructor
    · rintro ⟨h1, h2⟩
      simp only [Bool.not_eq_true'] at h2
      exact ⟨h1, h2⟩
    · rintro ⟨h1, h2⟩
      refine ⟨h1, ?_⟩
      simp only [Bool.not_eq_true']
      exact h2

/-- Witness for C3: for `A = {1, 2, 3}` and `B = {2}` the difference yields
`[1, 3]` — each non-member of `B` once, in `A`'s order. -/
theorem claim_C3_difference_witness :
    IndexSet.differenceList (IndexMap.ofPairs [(1, 0), (2, 0), (3, 0)])
        (IndexMap.ofPairs [(2, 0)]) = [1, 3]
    ∧ (IndexSet.differenceList (IndexMap.ofPairs [(1, 0), (2, 0), (3, 0)])
        (IndexMap.ofPairs [(2, 0)])).Nodup
    ∧ 3 ∈ IndexSet.differenceList (IndexMap.ofPairs [(1, 0), (2, 0), (3, 0)])
        (IndexMap.ofPairs [(2, 0)]) := by
  have h := claim_C3_difference (IndexMap.ofPairs [(1, 0), (2, 0), (3, 0)])
    (IndexMap.ofPairs [(2, 0)])
  refine ⟨?_, h.2.1 (by decide), (h.2.2 3).2 ⟨by decide, by decide⟩⟩
  rw [h.1]
  decide

/-! C4 support: faithfulness of the failure paths.  `splitEntries_ok` shows the
split-off construction succeeds exactly on consistent inputs;
`syncGoE_ok` shows the resync loop's non-null assertions succeed on a
consistent state read in range; the `WF_*` lemmas show the collapsed assertion
arms of `swapIndices` (and hence `moveIndex`) are unreachable from a
well-formed state, so modelling them as no-ops is faithful there. -/

/-- Helper for C4: `splitEntries` succeeds whenever every listed key has a
bucket. -/
theorem splitEntries_ok (t : List (Nat × Bucket)) (ks : List Nat)
    (h : ∀ k ∈ ks, mapFind t k ≠ none) :
    ∀ i, ∃ es, IndexMap.splitEntries t ks i = Except.ok es := by
  induction ks with
  | nil => intro i; exact ⟨[], rfl⟩
  | cons k rest ih =>
      intro i
      have hk := h k (List.mem_cons_self k rest)
      obtain ⟨es, hes⟩ := ih (fun x hx => h x (List.mem_cons_of_mem k hx)) (i + 1)
      match hb : mapFind t k with
      | none => exact absurd hb hk
      | some b =>
          refine ⟨(k, ⟨(i : Int), b.val⟩) :: es, ?_⟩
          simp [IndexMap.splitEntries, hb, hes, Except.map]

theorem mapFind_mapSet (t : List (Nat × Bucket)) (k : Nat) (b : Bucket) (k2 : Nat) :
    mapFind (mapSet t k b) k2 = if k2 = k then some b else mapFind t k2 := by
  induction t with
  | nil =>
      by_cases h : k = k2
      · subst h
        simp [mapSet, mapFind]
      · have h2 : ¬ k2 = k := fun he => h he.symm
        simp [mapSet, mapFind, h, h2]
  | cons p rest ih =>
      obtain ⟨pk, pb⟩ := p
      by_cases hp : pk = k
      · subst hp
        by_cases h : pk = k2
        · subst h
          simp [mapSet, mapFind]
        · have h2 : ¬ k2 = pk := fun he => h he.symm
          simp [mapSet, mapFind, h, h2]
      · by_cases h : pk = k2
        · subst h
          have h4 : ¬ k = pk := fun he => hp he.symm
          simp [mapSet, mapFind, hp, h4]
        · have h2 : ¬ k2 = pk := fun he => h he.symm
          simp [mapSet, mapFind, hp, h, ih]

theorem mapFind_mapSetIdx_eq_none (t : List (Nat × Bucket)) (k : Nat) (x : Int)
    (k2 : Nat) : mapFind (mapSetIdx t k x) k2 = none ↔ mapFind t k2 = none := by
  induction t with
  | nil => exact Iff.rfl
  | cons p rest ih =>
      obtain ⟨pk, pb⟩ := p
      by_cases hp : pk = k
      · subst hp
        by_cases h : pk = k2
        · subst h
          simp [mapSetIdx, mapFind]
        · have h2 : ¬ k2 = pk := fun he => h he.symm
          simp [mapSetIdx, mapFind, h, h2]
      · by_cases h : pk = k2
        · subst h
          simp [mapSetIdx, mapFind, hp]
        · simp only [mapSetIdx, mapFind, if_neg hp, if_neg h]
          exact ih

theorem length_mapSetIdx (t : List (Nat × Bucket)) (k : Nat) (x : Int) :
    (mapSetIdx t k x).length = t.length := by
  induction t with
  | nil => rfl
  | cons p rest ih =>
      show (if p.1 = k then (p.1, ⟨x, p.2.val⟩) :: rest
          else (p.1, p.2) :: mapSetIdx rest k x).length = _
      split
      · rfl
      · show (mapSetIdx rest k x).length + 1 = rest.length + 1
        rw [ih]

theorem length_mapSet_fresh {t : List (Nat × Bucket)} {k : Nat}
    (h : mapFind t k = none) (b : Bucket) :
    (mapSet t k b).length = t.length + 1 := by
  induction t with
  | nil => rfl
  | cons p rest ih =>
      have hp : p.1 ≠ k := by
        intro he
        rw [show mapFind (p :: rest) k = some p.2 from by
          simp [mapFind, he]] at h
        exact Option.noConfusion h
      have h2 : mapFind rest k = none := by
        rw [show mapFind (p :: rest) k = mapFind rest k from by
          simp [mapFind, hp]] at h
        exact h
      show (if p.1 = k then (p.1, b) :: rest else (p.1, p.2) :: mapSet rest k b).length = _
      rw [if_neg hp]
      show (mapSet rest k b).length + 1 = rest.length + 1 + 1
      rw [ih h2]

theorem length_jsSpliceInsert (l : List Nat) (s : Int) (x : Nat) :
    (jsSpliceInsert l s x).length = l.length + 1 := by
  have h : jsSpliceStart l.length s ≤ l.length := by
    rw [jsSpliceStart]
    split
    · omega
    · omega
  simp [jsSpliceInsert]
  omega

theorem mem_jsSpliceInsert {l : List Nat} {s : Int} {x y : Nat}
    (h : y ∈ jsSpliceInsert l s x) : y ∈ l ∨ y = x := by
  rw [jsSpliceInsert] at h
  rcases List.mem_append.1 h with h1 | h1
  · exact Or.inl (List.mem_of_mem_take h1)
  · rcases List.mem_cons.1 h1 with h1 | h1
    · exact Or.inr h1
    · exact Or.inl (List.mem_of_mem_drop h1)

theorem syncGoE_ok : ∀ (fuel : Nat) (m : IndexMap) (i : Nat),
    i + fuel ≤ m.indices.length →
    (∀ k ∈ m.indices, mapFind m.table k ≠ none) →
    ∃ m2, IndexMap.syncGoE m ((i : Nat) : Int) fuel = Except.ok m2 := by
  intro fuel
  induction fuel with
  | zero =>
      intro m i _ _
      exact ⟨m, rfl⟩
  | succ n ih =>
      intro m i hlen hkeys
      have hi : i < m.indices.length := by omega
      obtain ⟨k, hk⟩ : ∃ k, m.indices[i]? = some k :=
        ⟨m.indices[i], List.getElem?_eq_getElem hi⟩
      have hjs : jsGet m.indices ((i : Nat) : Int) = some k := by
        rw [jsGet, if_neg (by omega), show ((i : Nat) : Int).toNat = i from by omega]
        exact hk
      have hmem : k ∈ m.indices := List.mem_iff_getElem?.2 ⟨i, hk⟩
      rcases hb : mapFind m.table k with _ | b
      · exact absurd hb (hkeys k hmem)
      · have hkeys2 : ∀ k2 ∈ ({ m with table := mapSetIdx m.table k ((i : Nat) : Int) }
            : IndexMap).indices,
            mapFind ({ m with table := mapSetIdx m.table k ((i : Nat) : Int) }
              : IndexMap).table k2 ≠ none := by
          intro k2 hk2
          show mapFind (mapSetIdx m.table k ((i : Nat) : Int)) k2 ≠ none
          rw [Ne, mapFind_mapSetIdx_eq_none]
          exact hkeys k2 hk2
        obtain ⟨m2, hm2⟩ := ih { m with table := mapSetIdx m.table k ((i : Nat) : Int) }
          (i + 1) (by show i + 1 + n ≤ m.indices.length; omega) hkeys2
        refine ⟨m2, ?_⟩
        show (match jsGet m.indices ((i : Nat) : Int) with
          | none => Except.error JsErr.type
          | some k3 =>
              match mapFind m.table k3 with
              | none => Except.error JsErr.type
              | some _ => IndexMap.syncGoE
                  { m with table := mapSetIdx m.table k3 ((i : Nat) : Int) }
                  (((i : Nat) : Int) + 1) n) = Except.ok m2
        rw [hjs]
        show (match mapFind m.table k with
          | none => Except.error JsErr.type
          | some _ => IndexMap.syncGoE
              { m with table := mapSetIdx m.table k ((i : Nat) : Int) }
              (((i : Nat) : Int) + 1) n) = Except.ok m2
        rw [hb]
        show IndexMap.syncGoE { m with table := mapSetIdx m.table k ((i : Nat) : Int) }
          (((i : Nat) : Int) + 1) n = Except.ok m2
        rw [show ((i : Nat) : Int) + 1 = (((i + 1 : Nat)) : Int) from by push_cast; ring]
        exact hm2

/-- The two non-null assertions inside `swapIndices` succeed on every
well-formed state whose arguments pass the bounds guard: the slot reads are in
range and the keys read have buckets. -/
theorem swapIndices_assertions_succeed (m : IndexMap) (hwf : m.WF) (a b : Int)
    (hg : ¬(a > (m.table.length : Int) - 1 ∨ b > (m.table.length : Int) - 1
      ∨ a < 0 ∨ b < 0)) :
    ∃ kf kt bf bt, jsGet (swapArr m.indices a.toNat b.toNat) a = some kf
      ∧ jsGet (swapArr m.indices a.toNat b.toNat) b = some kt
      ∧ mapFind m.table kf = some bf ∧ mapFind m.table kt = some bt := by
  have ha : a.toNat < m.indices.length := by rw [← hwf.1]; omega
  have hb : b.toNat < m.indices.length := by rw [← hwf.1]; omega
  have hga : jsGet (swapArr m.indices a.toNat b.toNat) a
      = m.indices[swapPos a.toNat b.toNat a.toNat]? := by
    rw [jsGet, if_neg (by omega), getElem?_swapArr ha hb]
  have hgb : jsGet (swapArr m.indices a.toNat b.toNat) b
      = m.indices[swapPos a.toNat b.toNat b.toNat]? := by
    rw [jsGet, if_neg (by omega), getElem?_swapArr ha hb]
  obtain ⟨kf, hkf⟩ : ∃ kf, m.indices[swapPos a.toNat b.toNat a.toNat]? = some kf := by
    rcases h : m.indices[swapPos a.toNat b.toNat a.toNat]? with _ | kf
    · rw [List.getElem?_eq_none_iff] at h
      have := swapPos_lt ha hb ha
      omega
    · exact ⟨kf, rfl⟩
  obtain ⟨kt, hkt⟩ : ∃ kt, m.indices[swapPos a.toNat b.toNat b.toNat]? = some kt := by
    rcases h : m.indices[swapPos a.toNat b.toNat b.toNat]? with _ | kt
    · rw [List.getElem?_eq_none_iff] at h
      have := swapPos_lt ha hb hb
      omega
    · exact ⟨kt, rfl⟩
  obtain ⟨bf, hbf⟩ : ∃ bf, mapFind m.table kf = some bf := by
    rcases h : mapFind m.table kf with _ | bf
    · exact absurd h (hwf.2 kf (List.mem_iff_getElem?.2 ⟨_, hkf⟩))
    · exact ⟨bf, rfl⟩
  obtain ⟨bt, hbt⟩ : ∃ bt, mapFind m.table kt = some bt := by
    rcases h : mapFind m.table kt with _ | bt
    · exact absurd h (hwf.2 kt (List.mem_iff_getElem?.2 ⟨_, hkt⟩))
    · exact ⟨bt, rfl⟩
  exact ⟨kf, kt, bf, bt, by rw [hga]; exact hkf, by rw [hgb]; exact hkt, hbf, hbt⟩

theorem WF_swapIndices (m : IndexMap) (hwf : m.WF) (a b : Int) :
    (m.swapIndices a b).WF := by
  rw [IndexMap.swapIndices]
  split
  · exact hwf
  · rename_i hg
    have ha : a.toNat < m.indices.length := by rw [← hwf.1]; omega
    have hb : b.toNat < m.indices.length := by rw [← hwf.1]; omega
    split
    · rename_i kf kt hkf hkt
      split
      · rename_i bf bt hbf hbt
        refine ⟨?_, ?_⟩
        · show (mapSetIdx (mapSetIdx m.table kf bt.idx) kt bf.idx).length
            = (swapArr m.indices a.toNat b.toNat).length
          rw [length_mapSetIdx, length_mapSetIdx, length_swapArr]
          exact hwf.1
        · intro k2 hk2
          show mapFind (mapSetIdx (mapSetIdx m.table kf bt.idx) kt bf.idx) k2 ≠ none
          rw [Ne, mapFind_mapSetIdx_eq_none, mapFind_mapSetIdx_eq_none]
          exact hwf.2 k2 ((mem_swapArr_iff ha hb k2).1 hk2)
      · exact hwf
    · exact hwf

theorem WF_shiftUpGo : ∀ (t : Nat) (m : IndexMap) (i : Int), m.WF →
    (IndexMap.shiftUpGo m i t).WF := by
  intro t
  induction t with
  | zero => intro m i h; exact h
  | succ n ih => intro m i h; exact ih _ _ (WF_swapIndices m h i (i + 1))

theorem WF_shiftDownGo : ∀ (t : Nat) (m : IndexMap) (i : Int), m.WF →
    (IndexMap.shiftDownGo m i t).WF := by
  intro t
  induction t with
  | zero => intro m i h; exact h
  | succ n ih => intro m i h; exact ih _ _ (WF_swapIndices m h (i + 1) i)

/-- `moveIndex` preserves well-formedness: its swap walks only ever run
`swapIndices`, whose guard and (by `swapIndices_assertions_succeed`) whose
non-null assertions keep it total on well-formed states. -/
theorem WF_moveIndex (m : IndexMap) (hwf : m.WF) (a b : Int) :
    (m.moveIndex a b).WF := by
  simp only [IndexMap.moveIndex]
  split
  · split
    · exact WF_swapIndices m hwf _ _
    · split
      · exact WF_shiftUpGo _ m a hwf
      · exact WF_shiftDownGo _ m (a - 1) hwf
  · split
    · exact WF_swapIndices m hwf _ _
    · split
      · exact WF_shiftUpGo _ m a hwf
      · exact WF_shiftDownGo _ m (a - 1) hwf

/-- C4 (amended): out-of-range index arguments to the read and removal
accessors `getIndex`, `getIndexEntry` and `swapRemoveIndex` return an absent
result and never raise.  On a well-formed map (invariant I2: order array and
table the same size, every order key has a bucket), `shiftInsert` raises
exactly when the index exceeds the size (a `RangeError`) or the index is
negative and the key is fresh (a `TypeError` from the resync loop's non-null
assertion; on I2-violating maps — reachable through the C1/C5 corruption —
that assertion can raise even for an in-range index).  `splitOff` on a
well-formed map raises exactly when the index is outside `[0, size]` (so also
for negative indices); `splice` range construction performs no validation and
never raises. -/
theorem claim_C4_failure_semantics :
    (∀ (m : IndexMap) (i : Int), oob i m.size = true → m.getIndexE i = Except.ok none)
    ∧ (∀ (m : IndexMap) (i : Int), oob i m.size = true → m.getIndexEntryE i = Except.ok none)
    ∧ (∀ (m : IndexMap) (i : Int), oob i m.indices.length = true →
        m.swapRemoveIndexVal i = (m, none))
    ∧ (∀ (m : IndexMap) (i : Int) (k v : Nat), m.WF →
        ((∃ e, m.shiftInsertE i k v = Except.error e)
          ↔ ((m.size : Int) < i ∨ (i < 0 ∧ mapFind m.table k = none))))
    ∧ (∀ (m : IndexMap) (i : Int) (k v : Nat), (m.size : Int) < i →
        m.shiftInsertE i k v = Except.error JsErr.range)
    ∧ (∀ (m : IndexMap) (i : Int) (k v : Nat), i < 0 →
        mapFind m.table k = none →
        m.shiftInsertE i k v = Except.error JsErr.type)
    ∧ (∀ (m : IndexMap) (cut : Int), m.WF →
        ((∃ e, m.splitOffE cut = Except.error e) ↔ ((m.size : Int) < cut ∨ cut < 0)))
    ∧ (∀ (m : IndexMap) (a b : Int) (rep : List (Nat × Nat)),
        ∃ s, SpliceSt.mk1 m a b rep = Except.ok s) := by
  have herr : ∀ (m : IndexMap) (i : Int) (k v : Nat), (m.table.length : Int) < i →
      m.shiftInsertE i k v = Except.error JsErr.range := by
    intro m i k v hlt
    simp only [IndexMap.shiftInsertE]
    rw [if_pos hlt]
  have htype : ∀ (m : IndexMap) (i : Int) (k v : Nat), ¬((m.table.length : Int) < i) →
      i < 0 → mapFind m.table k = none →
      m.shiftInsertE i k v = Except.error JsErr.type := by
    intro m i k v hlt hneg hb
    have hget : m.getFull k = none := by
      simp only [IndexMap.getFull, hb]
    simp only [IndexMap.shiftInsertE, hget]
    rw [if_neg hlt]
    have hlen1 : 0 < (mapSet m.table k ⟨i, v⟩).length := by
      rw [length_mapSet_fresh hb]
      omega
    obtain ⟨f, hf⟩ : ∃ f, (((mapSet m.table k ⟨i, v⟩).length : Int) - i).toNat
        = f + 1 := ⟨(((mapSet m.table k ⟨i, v⟩).length : Int) - i).toNat - 1, by omega⟩
    have hgn : jsGet (jsSpliceInsert m.indices i k) i = none := by
      rw [jsGet, if_pos hneg]
    rw [show IndexMap.syncIndicesE
        (⟨mapSet m.table k ⟨i, v⟩, jsSpliceInsert m.indices i k⟩ : IndexMap) i
        (((mapSet m.table k ⟨i, v⟩).length : Nat) : Int)
        = Except.error JsErr.type from by
      rw [IndexMap.syncIndicesE, hf]
      show (match jsGet (jsSpliceInsert m.indices i k) i with
        | none => Except.error JsErr.type
        | some k2 =>
            match mapFind (mapSet m.table k ⟨i, v⟩) k2 with
            | none => Except.error JsErr.type
            | some _ => IndexMap.syncGoE _ (i + 1) f) = Except.error JsErr.type
      rw [hgn]]
    rfl
  have hok_existing : ∀ (m : IndexMap) (i : Int) (k v : Nat) (b : Bucket),
      mapFind m.table k = some b → ¬((m.table.length : Int) < i) →
      m.shiftInsertE i k v = Except.ok (m.moveIndex b.idx i, some b.val) := by
    intro m i k v b hb hlt
    have hget : m.getFull k = some (b.idx, k, b.val) := by
      simp only [IndexMap.getFull, hb]
    simp only [IndexMap.shiftInsertE, hget]
    rw [if_neg hlt]
  have hok_fresh : ∀ (m : IndexMap) (i : Int) (k v : Nat), m.WF →
      mapFind m.table k = none → ¬((m.table.length : Int) < i) → ¬(i < 0) →
      ∃ r, m.shiftInsertE i k v = Except.ok r := by
    intro m i k v hwf hb hlt hneg
    obtain ⟨j, rfl⟩ : ∃ j : Nat, i = ((j : Nat) : Int) := ⟨i.toNat, by omega⟩
    have hget : m.getFull k = none := by
      simp only [IndexMap.getFull, hb]
    have hst : (mapSet m.table k ⟨((j : Nat) : Int), v⟩).length
        = m.table.length + 1 := length_mapSet_fresh hb _
    have hindlen : (jsSpliceInsert m.indices ((j : Nat) : Int) k).length
        = m.indices.length + 1 := length_jsSpliceInsert _ _ _
    have hkeys : ∀ k2 ∈ (jsSpliceInsert m.indices ((j : Nat) : Int) k),
        mapFind (mapSet m.table k ⟨((j : Nat) : Int), v⟩) k2 ≠ none := by
      intro k2 hk2
      rw [mapFind_mapSet]
      by_cases he : k2 = k
      · rw [if_pos he]
        exact Option.noConfusion
      · rw [if_neg he]
        rcases mem_jsSpliceInsert hk2 with h1 | h1
        · exact hwf.2 k2 h1
        · exact absurd h1 he
    obtain ⟨m2, hm2⟩ := syncGoE_ok (m.table.length + 1 - j)
      (⟨mapSet m.table k ⟨((j : Nat) : Int), v⟩,
        jsSpliceInsert m.indices ((j : Nat) : Int) k⟩ : IndexMap) j
      (by
        show j + (m.table.length + 1 - j)
          ≤ (jsSpliceInsert m.indices ((j : Nat) : Int) k).length
        rw [hindlen, ← hwf.1]
        omega)
      hkeys
    refine ⟨(m2, none), ?_⟩
    simp only [IndexMap.shiftInsertE, hget]
    rw [if_neg hlt]
    rw [show IndexMap.syncIndicesE
        (⟨mapSet m.table k ⟨((j : Nat) : Int), v⟩,
          jsSpliceInsert m.indices ((j : Nat) : Int) k⟩ : IndexMap) ((j : Nat) : Int)
        (((mapSet m.table k ⟨((j : Nat) : Int), v⟩).length : Nat) : Int)
        = Except.ok m2 from by
      rw [IndexMap.syncIndicesE, hst,
        show (((m.table.length + 1 : Nat) : Int) - ((j : Nat) : Int)).toNat
          = m.table.length + 1 - j from by omega]
      exact hm2]
    rfl
  refine ⟨?_, ?_, ?_, ?_, ?_, ?_, ?_, ?_⟩
  · intro m i h
    have h2 : oob i m.table.length = true := h
    simp [IndexMap.getIndexE, h2]
  · intro m i h
    have h2 : oob i m.table.length = true := h
    simp [IndexMap.getIndexEntryE, h2]
  · intro m i h
    have h2 : m.indices.length = 0 ∨ i < 0 ∨ (m.indices.length : Int) ≤ i := by
      simp only [oob, Bool.or_eq_true, decide_eq_true_eq] at h
      omega
    simp only [IndexMap.swapRemoveIndexVal]
    rw [if_pos h2]
  · intro m i k v hwf
    constructor
    · rintro ⟨e, he⟩
      by_contra hnot
      push_neg at hnot
      obtain ⟨h1, h2⟩ := hnot
      have h1x : ¬ ((m.table.length : Int) < i) := by
        have hx : ¬ ((m.size : Int) < i) := by omega
        exact hx
      rcases hb : mapFind m.table k with _ | b
      · have hneg : ¬ i < 0 := fun hn => h2 hn hb
        obtain ⟨r, hr⟩ := hok_fresh m i k v hwf hb h1x hneg
        rw [hr] at he
        exact Except.noConfusion he
      · rw [hok_existing m i k v b hb h1x] at he
        exact Except.noConfusion he
    · rintro (h1 | ⟨h2, h3⟩)
      · exact ⟨JsErr.range, herr m i k v h1⟩
      · exact ⟨JsErr.type, htype m i k v (by omega) h2 h3⟩
  · intro m i k v h1
    exact herr m i k v h1
  · intro m i k v hneg hb
    exact htype m i k v (by omega) hneg hb
  · intro m cut hwf
    by_cases hrange : (m.table.length : Int) < cut ∨ cut < 0
    · constructor
      · intro _
        exact hrange
      · intro _
        refine ⟨JsErr.range, ?_⟩
        simp only [IndexMap.splitOffE]
        rw [if_pos hrange]
    · constructor
      · rintro ⟨e, he⟩
        simp only [IndexMap.splitOffE] at he
        rw [if_neg hrange] at he
        obtain ⟨es, hes⟩ := splitEntries_ok m.table (m.indices.drop cut.toNat)
          (fun k hk => hwf.2 k (List.mem_of_mem_drop hk)) 0
        rw [hes] at he
        exact Except.noConfusion he
      · intro hx
        exact absurd hx hrange
  · intro m a b rep
    exact ⟨_, rfl⟩

/-- C4 witness: the amended statement applied at concrete inputs, with every
hypothesis discharged there: a singleton map, an out-of-range read, a negative
read, an out-of-range swap removal, an in-range fresh insert (no raise), an
over-the-size insert (range error), a negative-index fresh insert (type
error), and a negative split index. -/
theorem claim_C4_failure_semantics_witness :
    (IndexMap.ofPairs [(7, 1)]).getIndexE 3 = Except.ok none
    ∧ (IndexMap.ofPairs [(7, 1)]).getIndexEntryE (-2) = Except.ok none
    ∧ (IndexMap.ofPairs [(7, 1)]).swapRemoveIndexVal 5
        = (IndexMap.ofPairs [(7, 1)], none)
    ∧ ¬(∃ e, (IndexMap.ofPairs [(7, 1)]).shiftInsertE 1 8 8 = Except.error e)
    ∧ (IndexMap.ofPairs [(7, 1)]).shiftInsertE 2 8 8 = Except.error JsErr.range
    ∧ (IndexMap.ofPairs [(7, 1)]).shiftInsertE (-1) 8 8 = Except.error JsErr.type
    ∧ ((∃ e, (IndexMap.ofPairs [(7, 1)]).splitOffE (-1) = Except.error e)
        ↔ (((IndexMap.ofPairs [(7, 1)]).size : Int) < -1 ∨ (-1 : Int) < 0)) :=
  ⟨claim_C4_failure_semantics.1 (IndexMap.ofPairs [(7, 1)]) 3 (by decide),
   claim_C4_failure_semantics.2.1 (IndexMap.ofPairs [(7, 1)]) (-2) (by decide),
   claim_C4_failure_semantics.2.2.1 (IndexMap.ofPairs [(7, 1)]) 5 (by decide),
   fun he =>
     by
       have h := (claim_C4_failure_semantics.2.2.2.1 (IndexMap.ofPairs [(7, 1)])
         1 8 8 (by decide)).1 he
       revert h
       decide,
   claim_C4_failure_semantics.2.2.2.2.1 (IndexMap.ofPairs [(7, 1)]) 2 8 8 (by decide),
   claim_C4_failure_semantics.2.2.2.2.2.1 (IndexMap.ofPairs [(7, 1)]) (-1) 8 8
     (by decide) (by decide),
   claim_C4_failure_semantics.2.2.2.2.2.2.1 (IndexMap.ofPairs [(7, 1)]) (-1) (by decide)⟩
